import Mathlib

/-!
Shallow embedding of `src/huffman.py` (a byte-oriented Huffman codec) and
verification of the specification's claims about it.

Python `bytes` values are modelled as `List Nat` (their byte values) and
Python `str` code strings as `List Nat` (their character ordinals, `'0'` = 48,
`'1'` = 49, `'O'` = 79, `'V'` = 86).  Python dicts are association lists in
insertion order.  Python exceptions are `Except`/`Option` error values.
`list.sort` (a stable sort) is modelled by a stable insertion sort, and the
`while` loops by fuel recursion where the fuel (the initial list length) is
an upper bound on the number of iterations, so that every definition
evaluates by kernel reduction.
-/

namespace Huffman

/-- A data symbol: a Python `bytes` value, as the list of its byte values.
Real data symbols are single bytes (`bytes([b])` is `[b]`); the decoder's
placeholder key `b'OVO'` is `[79, 86, 79]`. -/
abbrev Symbol := List Nat

/-- A Huffman code string: a Python `str`, as the list of character
ordinals.  Bit characters are `'0'` = 48 and `'1'` = 49. -/
abbrev Code := List Nat

/-- `Node` values as constructed in `huffman.py`: every node the source
constructs is either a leaf (`Node(value, w, None, None)`) or an internal
node with two children (`Node(None, w, node_1, node_2)`).  The weight field
is carried beside the tree in the working lists below, mirroring that the
source only reads weights of nodes currently sitting in `node_lst`. -/
inductive HTree : Type where
  | leaf (value : Symbol)
  | node (lchild rchild : HTree)
deriving DecidableEq, Repr

/-- Stable insertion: place `x` before the first element `y` with
`le x y`. -/
def pyInsert {α : Type} (le : α → α → Bool) (x : α) : List α → List α
  | [] => [x]
  | y :: ys => if le x y then x :: y :: ys else y :: pyInsert le x ys

/-- Python `list.sort` with comparison `le`: a stable sort.  Python's sort
is stable, so any stable sort (here insertion sort) produces the same list
for a total preorder `le`. -/
def pySort {α : Type} (le : α → α → Bool) : List α → List α
  | [] => []
  | x :: xs => pyInsert le x (pySort le xs)

/-- `dlr` from `Node.build`: depth-first traversal recording, at each leaf,
the accumulated code (`'0'` appended when descending left, `'1'` when
descending right).  The Python version assigns into a dict; this returns
the assignments in traversal order. -/
def dlr : HTree → Code → List (Symbol × Code)
  | .leaf v, huffman_code => [(v, huffman_code)]
  | .node l r, huffman_code =>
      dlr l (huffman_code ++ [48]) ++ dlr r (huffman_code ++ [49])

/-- `node_lst.sort(key=lambda item: item.weight, reverse=True)`: stable
descending sort by weight. -/
def sortByWeightDesc (l : List (Nat × HTree)) : List (Nat × HTree) :=
  pySort (fun a b => decide (b.1 ≤ a.1)) l

/-- The re-insertion loop of `Node.build` (lines 60–64): the freshly merged
node is appended and then shifted left past every node of weight ≤ its own,
i.e. it ends up just before the maximal suffix of weights ≤ its weight. -/
def insertByWeight (x : Nat × HTree) (l : List (Nat × HTree)) : List (Nat × HTree) :=
  (l.reverse.dropWhile (fun y => decide (y.1 ≤ x.1))).reverse
    ++ x :: (l.reverse.takeWhile (fun y => decide (y.1 ≤ x.1))).reverse

/-- The tree-building loop of `Node.build` (lines 53–64), fuel recursion:
repeatedly pop the two lightest nodes (the last two of the descending
list), merge them (the second-popped node becomes the left child) and
re-insert.  Each iteration shortens the list by one, so fuel = initial
length is enough. -/
def mergeForestGo : Nat → List (Nat × HTree) → List (Nat × HTree)
  | 0, node_lst => node_lst
  | fuel + 1, node_lst =>
    if node_lst.length ≤ 1 then node_lst
    else
      match node_lst.reverse with
      | [] => node_lst
      | [_] => node_lst
      | node_2 :: node_1 :: rest =>
          mergeForestGo fuel
            (insertByWeight (node_1.1 + node_2.1, HTree.node node_1.2 node_2.2) rest.reverse)

/-- The `while len(node_lst) > 1` loop of `Node.build`. -/
def mergeForest (node_lst : List (Nat × HTree)) : List (Nat × HTree) :=
  mergeForestGo node_lst.length node_lst

/-- `Node.build`: frequency dict → Huffman code dict.  The returned table
keeps the key order of `fre_dic`: the Python code pre-fills
`{key: '' for key in fre_dic}` and `dlr` overwrites values in place (last
assignment wins), which leaves the original key order intact. -/
def build (fre_dic : List (Symbol × Nat)) : List (Symbol × Code) :=
  if fre_dic = [] then []
  else if fre_dic.length = 1 then fre_dic.map (fun kv => (kv.1, [48]))
  else
    match mergeForest (sortByWeightDesc (fre_dic.map (fun kv => (kv.2, HTree.leaf kv.1)))) with
    | [] => []
    | root :: _ =>
        fre_dic.map (fun kv =>
          (kv.1, (((dlr root.2 []).reverse.find? (fun e => decide (e.1 = kv.1))).map Prod.snd).getD []))

/-- `int(s, 2)` on a string of `'0'`/`'1'` characters (the only strings the
source converts: slices of `bin_buffer`, which is a concatenation of table
codes). -/
def pyIntBase2 (s : Code) : Nat :=
  s.foldl (fun a c => 2 * a + (if c = 49 then 1 else 0)) 0

/-- `s.ljust(n, '0')`. -/
def pyLjust (s : Code) (n : Nat) : Code := s ++ List.replicate (n - s.length) 48

/-- The inner `while len(bin_buffer) >= 8` loop of `Node.encode`
(lines 85–87), fuel recursion: move complete bytes from the bit buffer to
the output.  Each iteration drops eight characters, so fuel = buffer length
is enough. -/
def drainBufferGo : Nat → Code → List Nat → Code × List Nat
  | 0, bin_buffer, write_buffer => (bin_buffer, write_buffer)
  | fuel + 1, bin_buffer, write_buffer =>
    if 8 ≤ bin_buffer.length then
      drainBufferGo fuel (bin_buffer.drop 8) (write_buffer ++ [pyIntBase2 (bin_buffer.take 8)])
    else (bin_buffer, write_buffer)

/-- The `while len(bin_buffer) >= 8` loop of `Node.encode`. -/
def drainBuffer (bin_buffer : Code) (write_buffer : List Nat) : Code × List Nat :=
  drainBufferGo bin_buffer.length bin_buffer write_buffer

/-- The per-symbol loop of `Node.encode` (lines 83–87).  A missing dict key
is a Python `KeyError` carrying the key, modelled as the `Except` error. -/
def encodeLoop (huffman_dic : List (Symbol × Code)) :
    List Nat → Code → List Nat → Except Symbol (Code × List Nat)
  | [], bin_buffer, write_buffer => .ok (bin_buffer, write_buffer)
  | b :: rest, bin_buffer, write_buffer =>
    match (huffman_dic.find? (fun e => decide (e.1 = [b]))).map Prod.snd with
    | none => .error [b]
    | some code =>
        let s := drainBuffer (bin_buffer ++ code) write_buffer
        encodeLoop huffman_dic rest s.1 s.2

/-- `Node.encode`: returns `(packed bytes, padding)`, or the `KeyError`
symbol.  The final partial byte, if any, is left-justified with `'0'`
characters (lines 90–93). -/
def encode (str_bytes : List Nat) (huffman_dic : List (Symbol × Code)) :
    Except Symbol (List Nat × Nat) :=
  match encodeLoop huffman_dic str_bytes [] [] with
  | .error e => .error e
  | .ok (bin_buffer, write_buffer) =>
    if bin_buffer = [] then .ok (write_buffer, 0)
    else .ok (write_buffer ++ [pyIntBase2 (pyLjust bin_buffer 8)], 8 - bin_buffer.length)

/-- `bin(item)[2:].rjust(8, '0')` as a bit list, for one byte (the `dic`
table in `Node.decode` is built for items 0–255, where the binary expansion
has at most 8 digits). -/
def byteToBits (n : Nat) : List Nat :=
  [n / 128 % 2, n / 64 % 2, n / 32 % 2, n / 16 % 2, n / 8 % 2, n / 4 % 2, n / 2 % 2, n % 2]

/-- Python list slice `l[0:stop]` with a possibly negative stop. -/
def pySliceTo {α : Type} (l : List α) (stop : Int) : List α :=
  if stop < 0 then l.take (l.length - stop.natAbs) else l.take stop.toNat

/-- Python string comparison (lexicographic on character ordinals),
non-strict. -/
def strLe : List Nat → List Nat → Bool
  | [], _ => true
  | _ :: _, [] => false
  | a :: s, b :: t => if a < b then true else if b < a then false else strLe s t

/-- The decode-side sort key `(len(code), code)`, compared as a Python
tuple. -/
def codeKeyLe (c d : Code) : Bool :=
  if c.length < d.length then true
  else if d.length < c.length then false
  else strLe c d

/-- `node_lst.sort(key=lambda i: (len(i.weight), i.weight))` in
`Node.decode`: stable ascending sort by `(length, lexicographic)`. -/
def sortNodes (l : List (Code × HTree)) : List (Code × HTree) :=
  pySort (fun a b => codeKeyLe a.1 b.1) l

/-- The tree-rebuilding loop of `Node.decode` (lines 109–116), fuel
recursion: merge the two entries with the largest
`(length, lexicographic)` keys (the second-largest becomes the left
child), key the merged node by the second-largest key with its last
character removed, and re-sort.  Each iteration shortens the list by one,
so fuel = initial length is enough. -/
def mergeCodesGo : Nat → List (Code × HTree) → List (Code × HTree)
  | 0, node_lst => node_lst
  | fuel + 1, node_lst =>
    if node_lst.length ≤ 1 then node_lst
    else
      match node_lst.reverse with
      | [] => node_lst
      | [_] => node_lst
      | node_2 :: node_1 :: rest =>
          mergeCodesGo fuel
            (sortNodes (rest.reverse ++ [(node_1.1.dropLast, HTree.node node_1.2 node_2.2)]))

/-- The `while len(node_lst) > 1` loop of `Node.decode`. -/
def mergeCodes (node_lst : List (Code × HTree)) : List (Code × HTree) :=
  mergeCodesGo node_lst.length node_lst

/-- The body of the inner `for item in read_buffer[pos:pos+8]` loop of
`Node.decode` (lines 132–141), over an arbitrary bit segment.  Stepping
from a leaf sets `current = None` in Python and crashes on the next
attribute access; that is the `none` result. -/
def walkSeg (root : HTree) : HTree → List Nat → List Nat → Option (HTree × List Nat)
  | current, write_buffer, [] => some (current, write_buffer)
  | current, write_buffer, item :: rest =>
    match current with
    | .leaf _ => none
    | .node lchild rchild =>
      match (if item ≠ 0 then rchild else lchild) with
      | .leaf v => walkSeg root root (write_buffer ++ v) rest
      | .node l r => walkSeg root (HTree.node l r) write_buffer rest

/-- The outer `for pos in range(0, buffer_size, 8)` loop of `Node.decode`
(line 131), fuel recursion: walk the sliced bit list in chunks of eight
(the chunk at `pos` is `read_buffer[pos:pos+8]`, and `current` /
`write_buffer` persist across chunks).  Each chunk consumes at least one
bit, so fuel = bit count is enough. -/
def chunkWalkGo (root : HTree) : Nat → HTree → List Nat → List Nat → Option (List Nat)
  | 0, _, write_buffer, _ => some write_buffer
  | fuel + 1, current, write_buffer, bits =>
    if bits = [] then some write_buffer
    else
      match walkSeg root current write_buffer (bits.take 8) with
      | none => none
      | some s => chunkWalkGo root fuel s.1 s.2 (bits.drop 8)

/-- The chunked decode walk over a bit list. -/
def chunkWalk (root current : HTree) (write_buffer bits : List Nat) : Option (List Nat) :=
  chunkWalkGo root bits.length current write_buffer bits

/-- Python dict assignment `d[k] = v`: overwrite in place when the key
exists (keeping its position), else append at the end. -/
def pyDictSet (d : List (Symbol × Code)) (k : Symbol) (v : Code) : List (Symbol × Code) :=
  if d.any (fun e => decide (e.1 = k)) then d.map (fun e => if e.1 = k then (e.1, v) else e)
  else d ++ [(k, v)]

/-- The placeholder key `b'OVO'` (equally, the placeholder code `'OVO'`)
inserted by `Node.decode` in the degenerate single-entry case (line 104). -/
def ovo : List Nat := [79, 86, 79]

/-- `Node.decode`, returning the result together with the final state of the
(mutated in place) `huffman_dic`.  A `none` result models a Python exception
during the bit-walk; the source raises nothing else on this path. -/
def decodeWithTable (str_bytes : List Nat) (huffman_dic : List (Symbol × Code))
    (padding : Nat) : Option (List Nat) × List (Symbol × Code) :=
  if huffman_dic = [] then (some [], huffman_dic)
  else
    let dic := if huffman_dic.length = 1 then pyDictSet huffman_dic ovo ovo else huffman_dic
    match mergeCodes (sortNodes (dic.map (fun kv => (kv.2, HTree.leaf kv.1)))) with
    | [] => (none, dic)
    | rootPair :: _ =>
      let buffer_size : Int := 8 * str_bytes.length
      let read_buffer := pySliceTo (str_bytes.flatMap byteToBits) (buffer_size - padding)
      if buffer_size - padding ≤ 0 then (some [], dic)
      else (chunkWalk rootPair.2 rootPair.2 [] read_buffer, dic)

/-- `Node.decode`'s return value. -/
def decode (str_bytes : List Nat) (huffman_dic : List (Symbol × Code))
    (padding : Nat) : Option (List Nat) :=
  (decodeWithTable str_bytes huffman_dic padding).1

/-! ### Generic facts about the stable sort -/

theorem pyInsert_perm {α : Type} (le : α → α → Bool) (x : α) (l : List α) :
    (pyInsert le x l).Perm (x :: l) := by
  induction l with
  | nil => simp [pyInsert]
  | cons y ys ih =>
    simp only [pyInsert]
    split
    · exact List.Perm.refl _
    · exact ((ih.cons y).trans (List.Perm.swap x y ys)).symm.symm

theorem pySort_perm {α : Type} (le : α → α → Bool) (l : List α) :
    (pySort le l).Perm l := by
  induction l with
  | nil => simp [pySort]
  | cons x xs ih =>
    exact (pyInsert_perm le x (pySort le xs)).trans (ih.cons x)

theorem pyInsert_sorted {α : Type} (le : α → α → Bool)
    (htrans : ∀ a b c, le a b = true → le b c = true → le a c = true)
    (htot : ∀ a b, le a b = true ∨ le b a = true)
    (x : α) (l : List α) (hs : l.Pairwise (fun a b => le a b = true)) :
    (pyInsert le x l).Pairwise (fun a b => le a b = true) := by
  induction l with
  | nil => simp [pyInsert]
  | cons y ys ih =>
    simp only [pyInsert]
    rcases List.pairwise_cons.mp hs with ⟨hy, hys⟩
    split
    · rename_i hxy
      refine List.pairwise_cons.mpr ⟨?_, hs⟩
      intro z hz
      rcases List.mem_cons.mp hz with rfl | hz
      · exact hxy
      · exact htrans x y z hxy (hy z hz)
    · rename_i hxy
      have hyx : le y x = true := by
        rcases htot x y with h | h
        · exact absurd h hxy
        · exact h
      refine List.pairwise_cons.mpr ⟨?_, ih hys⟩
      intro z hz
      have hz2 := (pyInsert_perm le x ys).mem_iff.mp hz
      rcases List.mem_cons.mp hz2 with rfl | hz3
      · exact hyx
      · exact hy z hz3

theorem pySort_sorted {α : Type} (le : α → α → Bool)
    (htrans : ∀ a b c, le a b = true → le b c = true → le a c = true)
    (htot : ∀ a b, le a b = true ∨ le b a = true)
    (l : List α) : (pySort le l).Pairwise (fun a b => le a b = true) := by
  induction l with
  | nil => simp [pySort]
  | cons x xs ih => exact pyInsert_sorted le htrans htot x _ ih

theorem length_pySort {α : Type} (le : α → α → Bool) (l : List α) :
    (pySort le l).length = l.length :=
  (pySort_perm le l).length_eq

/-! ### Leaf/code combinatorics of binary trees -/

/-- The leaves of a tree together with their root-to-leaf codes
(`'0'` = 48 on the left branch, `'1'` = 49 on the right). -/
def leafCodes : HTree → List (Symbol × Code)
  | .leaf v => [(v, [])]
  | .node l r =>
      (leafCodes l).map (fun e => (e.1, 48 :: e.2))
        ++ (leafCodes r).map (fun e => (e.1, 49 :: e.2))

/-- The codes of all leaves. -/
def codesOf (t : HTree) : List Code := (leafCodes t).map Prod.snd

/-- The symbols of all leaves, in left-to-right order. -/
def treeLeaves : HTree → List Symbol
  | .leaf v => [v]
  | .node l r => treeLeaves l ++ treeLeaves r

/-- Height of the tree. -/
def depth : HTree → Nat
  | .leaf _ => 0
  | .node l r => max (depth l) (depth r) + 1

theorem treeLeaves_eq (t : HTree) : treeLeaves t = (leafCodes t).map Prod.fst := by
  induction t with
  | leaf v => simp [treeLeaves, leafCodes]
  | node l r ihl ihr =>
    simp only [treeLeaves, leafCodes, List.map_append, List.map_map, ihl, ihr]
    refine congrArg₂ (· ++ ·) ?_ ?_ <;> exact List.map_congr_left (fun e _ => rfl)

/-- `codesOf` on an internal node. -/
theorem codesOf_node (l r : HTree) :
    codesOf (HTree.node l r)
      = (codesOf l).map (fun c => 48 :: c) ++ (codesOf r).map (fun c => 49 :: c) := by
  simp only [codesOf, leafCodes, List.map_append, List.map_map]
  refine congrArg₂ (· ++ ·) ?_ ?_ <;> exact List.map_congr_left (fun e _ => rfl)

theorem dlr_eq (t : HTree) : ∀ pre : Code,
    dlr t pre = (leafCodes t).map (fun e => (e.1, pre ++ e.2)) := by
  induction t with
  | leaf v => intro pre; simp [dlr, leafCodes]
  | node l r ihl ihr =>
    intro pre
    simp only [dlr, leafCodes, ihl, ihr, List.map_append, List.map_map]
    refine congrArg₂ (· ++ ·) ?_ ?_ <;>
      · apply List.map_congr_left
        intro e _
        simp [List.append_assoc]

theorem leafCodes_ne_nil (t : HTree) : leafCodes t ≠ [] := by
  cases t with
  | leaf v => simp [leafCodes]
  | node l r =>
    simp only [leafCodes, ne_eq, List.append_eq_nil, List.map_eq_nil_iff, not_and]
    intro h
    exact absurd h (leafCodes_ne_nil l)

theorem leafCodes_len_le_depth (t : HTree) :
    ∀ e ∈ leafCodes t, e.2.length ≤ depth t := by
  induction t with
  | leaf v => intro e he; simp [leafCodes] at he; simp [he, depth]
  | node l r ihl ihr =>
    intro e he
    simp only [leafCodes, List.mem_append, List.mem_map] at he
    rcases he with ⟨a, ha, rfl⟩ | ⟨a, ha, rfl⟩
    · have := ihl a ha; simp only [depth]; simp; omega
    · have := ihr a ha; simp only [depth]; simp; omega

theorem exists_leafCode_len_eq_depth (t : HTree) :
    ∃ e ∈ leafCodes t, e.2.length = depth t := by
  induction t with
  | leaf v => exact ⟨(v, []), by simp [leafCodes, depth]⟩
  | node l r ihl ihr =>
    rcases ihl with ⟨e₁, he₁, hl₁⟩
    rcases ihr with ⟨e₂, he₂, hl₂⟩
    rcases Nat.le_total (depth l) (depth r) with h | h
    · refine ⟨(e₂.1, 49 :: e₂.2), ?_, ?_⟩
      · simp only [leafCodes, List.mem_append, List.mem_map]
        exact Or.inr ⟨e₂, he₂, rfl⟩
      · simp [depth, hl₂]; omega
    · refine ⟨(e₁.1, 48 :: e₁.2), ?_, ?_⟩
      · simp only [leafCodes, List.mem_append, List.mem_map]
        exact Or.inl ⟨e₁, he₁, rfl⟩
      · simp [depth, hl₁]; omega

theorem leafCodes_chars (t : HTree) :
    ∀ e ∈ leafCodes t, ∀ ch ∈ e.2, ch = 48 ∨ ch = 49 := by
  induction t with
  | leaf v => intro e he; simp [leafCodes] at he; simp [he]
  | node l r ihl ihr =>
    intro e he ch hch
    simp only [leafCodes, List.mem_append, List.mem_map] at he
    rcases he with ⟨a, ha, rfl⟩ | ⟨a, ha, rfl⟩
    · rcases List.mem_cons.mp hch with h | h
      · exact Or.inl h
      · exact ihl a ha ch h
    · rcases List.mem_cons.mp hch with h | h
      · exact Or.inr h
      · exact ihr a ha ch h

theorem leafCodes_code_ne_nil {l r : HTree} :
    ∀ e ∈ leafCodes (HTree.node l r), e.2 ≠ [] := by
  intro e he
  simp only [leafCodes, List.mem_append, List.mem_map] at he
  rcases he with ⟨a, _, rfl⟩ | ⟨a, _, rfl⟩ <;> simp

theorem nil_mem_codesOf {t : HTree} (h : [] ∈ codesOf t) : ∃ v, t = HTree.leaf v := by
  cases t with
  | leaf v => exact ⟨v, rfl⟩
  | node l r =>
    exfalso
    simp only [codesOf, List.mem_map] at h
    rcases h with ⟨e, he, h2⟩
    exact leafCodes_code_ne_nil e he h2

theorem codesOf_nodup (t : HTree) : (codesOf t).Nodup := by
  induction t with
  | leaf v => simp [codesOf, leafCodes]
  | node l r ihl ihr =>
    rw [codesOf_node, List.nodup_append]
    refine ⟨?_, ?_, ?_⟩
    · exact ihl.map (fun a b h => by simpa using h)
    · exact ihr.map (fun a b h => by simpa using h)
    · intro c hc hc2
      simp only [List.mem_map] at hc hc2
      rcases hc with ⟨e, _, rfl⟩
      rcases hc2 with ⟨e2, _, h⟩
      simp at h

theorem mem_codesOf_of_mem {t : HTree} {e : Symbol × Code}
    (he : e ∈ leafCodes t) : e.2 ∈ codesOf t :=
  List.mem_map_of_mem Prod.snd he

theorem codesOf_prefix_free (t : HTree) :
    ∀ p ∈ codesOf t, ∀ q ∈ codesOf t, p ≠ q → ¬ p <+: q := by
  induction t with
  | leaf v =>
    intro p hp q hq hne
    simp [codesOf, leafCodes] at hp hq
    exact absurd (hp.trans hq.symm) hne
  | node l r ihl ihr =>
    intro p hp q hq hne
    rw [codesOf_node] at hp hq
    simp only [List.mem_append, List.mem_map] at hp hq
    rcases hp with ⟨a, ha, rfl⟩ | ⟨a, ha, rfl⟩ <;>
      rcases hq with ⟨b, hb, rfl⟩ | ⟨b, hb, rfl⟩
    · intro hpre
      have h1 : a <+: b := by
        rcases hpre with ⟨s, hs⟩
        exact ⟨s, by simpa using hs⟩
      have hne2 : a ≠ b := fun h => hne (by simp [h])
      exact ihl a ha b hb hne2 h1
    · intro hpre
      rcases hpre with ⟨s, hs⟩
      simp at hs
    · intro hpre
      rcases hpre with ⟨s, hs⟩
      simp at hs
    · intro hpre
      have h1 : a <+: b := by
        rcases hpre with ⟨s, hs⟩
        exact ⟨s, by simpa using hs⟩
      have hne2 : a ≠ b := fun h => hne (by simp [h])
      exact ihr a ha b hb hne2 h1

/-- Covering: any 48/49-string at least as long as the tree is deep has a
leaf code among its prefixes. -/
theorem codesOf_cover (t : HTree) :
    ∀ s : Code, (∀ ch ∈ s, ch = 48 ∨ ch = 49) → depth t ≤ s.length →
      ∃ p ∈ codesOf t, p <+: s := by
  induction t with
  | leaf v => intro s _ _; exact ⟨[], by simp [codesOf, leafCodes]⟩
  | node l r ihl ihr =>
    intro s hs hd
    match s with
    | [] => simp [depth] at hd
    | c :: s2 =>
      have hc := hs c (by simp)
      have hd2 : max (depth l) (depth r) ≤ s2.length := by
        simp [depth] at hd; simpa using hd
      rcases hc with rfl | rfl
      · rcases ihl s2 (fun ch h => hs ch (by simp [h])) (le_trans (le_max_left _ _) hd2)
          with ⟨p, hp, hpre⟩
        refine ⟨48 :: p, ?_, ?_⟩
        · rw [codesOf_node]
          exact List.mem_append_left _ (List.mem_map_of_mem _ hp)
        · rcases hpre with ⟨tl, rfl⟩
          exact ⟨tl, rfl⟩
      · rcases ihr s2 (fun ch h => hs ch (by simp [h])) (le_trans (le_max_right _ _) hd2)
          with ⟨p, hp, hpre⟩
        refine ⟨49 :: p, ?_, ?_⟩
        · rw [codesOf_node]
          exact List.mem_append_right _ (List.mem_map_of_mem _ hp)
        · rcases hpre with ⟨tl, rfl⟩
          exact ⟨tl, rfl⟩

/-! ### Order facts about the decode-side sort key -/

theorem strLe_refl (s : List Nat) : strLe s s = true := by
  induction s with
  | nil => rfl
  | cons a t ih => simp [strLe, ih]

theorem strLe_total (s t : List Nat) : strLe s t = true ∨ strLe t s = true := by
  induction s generalizing t with
  | nil => left; rfl
  | cons a s2 ih =>
    match t with
    | [] => right; rfl
    | b :: t2 =>
      rcases Nat.lt_trichotomy a b with h | h | h
      · left; simp [strLe, h]
      · subst h
        rcases ih t2 with h2 | h2
        · left; simpa [strLe] using h2
        · right; simpa [strLe] using h2
      · right; simp [strLe, h, Nat.not_lt_of_lt h]

theorem strLe_trans : ∀ {s t u : List Nat},
    strLe s t = true → strLe t u = true → strLe s u = true := by
  intro s
  induction s with
  | nil => intro t u _ _; rfl
  | cons a s2 ih =>
    intro t u h1 h2
    match t, u with
    | [], _ => simp [strLe] at h1
    | _ :: _, [] => simp [strLe] at h2
    | b :: t2, c :: u2 =>
      simp only [strLe] at h1 h2 ⊢
      split at h1
      · rename_i hab
        split at h2
        · rename_i hbc
          simp [Nat.lt_trans hab hbc]
        · rename_i hbc
          split at h2
          · exact absurd h2 (by simp)
          · rename_i hcb
            have : b = c := by omega
            subst this
            simp [hab]
      · rename_i hab
        split at h1
        · exact absurd h1 (by simp)
        · rename_i hba
          have hab2 : a = b := by omega
          subst hab2
          split at h2
          · rename_i hac
            simp [hac]
          · rename_i hac
            split at h2
            · exact absurd h2 (by simp)
            · rename_i hca
              have : a = c := by omega
              subst this
              simp [ih h1 h2]

/-- Comparing two strings that differ only in the last character. -/
theorem strLe_append_last {u : Code} {a b : Nat} :
    strLe (u ++ [a]) (u ++ [b]) = true → a ≤ b := by
  induction u with
  | nil =>
    intro h
    simp only [List.nil_append, strLe] at h
    split at h
    · rename_i hab; exact le_of_lt hab
    · split at h
      · exact absurd h (by simp)
      · rename_i h1 h2; omega
  | cons c u2 ih =>
    intro h
    simp only [List.cons_append, strLe] at h
    rw [if_neg (lt_irrefl c), if_neg (lt_irrefl c)] at h
    exact ih h

/-- No bit-string of length `|u| + 1` lies strictly between the siblings
`u ++ [48]` and `u ++ [49]` in lexicographic order. -/
theorem strLe_between {u v : Code} (hlen : v.length = u.length + 1)
    (h1 : strLe (u ++ [48]) v = true) (h2 : strLe v (u ++ [49]) = true) :
    v = u ++ [48] ∨ v = u ++ [49] := by
  induction u generalizing v with
  | nil =>
    match v with
    | [c] =>
      simp only [List.nil_append, strLe] at h1 h2
      have hc1 : 48 ≤ c := by
        split at h1
        · omega
        · split at h1
          · exact absurd h1 (by simp)
          · omega
      have hc2 : c ≤ 49 := by
        split at h2
        · omega
        · split at h2
          · exact absurd h2 (by simp)
          · omega
      interval_cases c
      · exact Or.inl rfl
      · exact Or.inr rfl
  | cons a u2 ih =>
    match v with
    | b :: v2 =>
      have hlen2 : v2.length = u2.length + 1 := by
        simpa using hlen
      simp only [List.cons_append, strLe] at h1 h2
      have hab : a = b := by
        rcases Nat.lt_trichotomy a b with hlt | heq | hgt
        · exfalso
          rw [if_neg (by omega : ¬ b < a), if_pos hlt] at h2
          exact absurd h2 (by simp)
        · exact heq
        · exfalso
          rw [if_neg (by omega : ¬ a < b), if_pos hgt] at h1
          exact absurd h1 (by simp)
      subst hab
      rw [if_neg (lt_irrefl a), if_neg (lt_irrefl a)] at h1 h2
      rcases ih hlen2 h1 h2 with h | h
      · exact Or.inl (by simp [h])
      · exact Or.inr (by simp [h])

theorem codeKeyLe_iff {c d : Code} :
    codeKeyLe c d = true
      ↔ c.length < d.length ∨ (c.length = d.length ∧ strLe c d = true) := by
  unfold codeKeyLe
  split
  · rename_i h; simp [h]
  · rename_i h
    split
    · rename_i h2
      constructor
      · intro hF; exact absurd hF (by simp)
      · intro hor
        rcases hor with h3 | ⟨h3, _⟩ <;> omega
    · rename_i h2
      have : c.length = d.length := by omega
      simp [this]

theorem codeKeyLe_trans (a b c : Code) (h1 : codeKeyLe a b = true)
    (h2 : codeKeyLe b c = true) : codeKeyLe a c = true := by
  rw [codeKeyLe_iff] at h1 h2 ⊢
  rcases h1 with h1 | ⟨h1, h1s⟩ <;> rcases h2 with h2 | ⟨h2, h2s⟩
  · exact Or.inl (by omega)
  · exact Or.inl (by omega)
  · exact Or.inl (by omega)
  · exact Or.inr ⟨by omega, strLe_trans h1s h2s⟩

theorem codeKeyLe_total (a b : Code) : codeKeyLe a b = true ∨ codeKeyLe b a = true := by
  rw [codeKeyLe_iff, codeKeyLe_iff]
  rcases Nat.lt_trichotomy a.length b.length with h | h | h
  · exact Or.inl (Or.inl h)
  · rcases strLe_total a b with h2 | h2
    · exact Or.inl (Or.inr ⟨h, h2⟩)
    · exact Or.inr (Or.inr ⟨h.symm, h2⟩)
  · exact Or.inr (Or.inl h)

/-! ### Multiset surgery on tree codes -/

theorem codesOf_chars (t : HTree) :
    ∀ c ∈ codesOf t, ∀ ch ∈ c, ch = 48 ∨ ch = 49 := by
  intro c hc
  simp only [codesOf, List.mem_map] at hc
  rcases hc with ⟨e, he, rfl⟩
  exact leafCodes_chars t e he

/-- Replacing two sibling leaf positions `u0`, `u1` by the single position
`u` preserves realisability as the code set of a binary tree. -/
theorem tree_surgery : ∀ (u : Code) (t : HTree) (X : Multiset Code),
    (↑(codesOf t) : Multiset Code) = (u ++ [48]) ::ₘ (u ++ [49]) ::ₘ X →
    ∃ t2 : HTree, (↑(codesOf t2) : Multiset Code) = u ::ₘ X := by
  intro u
  induction u with
  | nil =>
    intro t X h
    simp only [List.nil_append] at h
    have h48 : [48] ∈ codesOf t := by
      rw [← Multiset.mem_coe, h]; simp
    have h49 : [49] ∈ codesOf t := by
      rw [← Multiset.mem_coe, h]; simp
    match t with
    | .leaf v => simp [codesOf, leafCodes] at h48
    | .node l r =>
      rw [codesOf_node] at h48 h49
      have hl : l = HTree.leaf (match l with | .leaf v => v | _ => []) ∨ True := Or.inr trivial
      -- identify both children as leaves
      have hlleaf : ∃ v, l = HTree.leaf v := by
        rcases List.mem_append.mp h48 with hm | hm
        · simp only [List.mem_map] at hm
          rcases hm with ⟨c, hc, hcc⟩
          have : c = [] := by simpa using hcc
          exact nil_mem_codesOf (this ▸ hc)
        · simp only [List.mem_map] at hm
          rcases hm with ⟨c, _, hcc⟩
          simp at hcc
      have hrleaf : ∃ v, r = HTree.leaf v := by
        rcases List.mem_append.mp h49 with hm | hm
        · simp only [List.mem_map] at hm
          rcases hm with ⟨c, _, hcc⟩
          simp at hcc
        · simp only [List.mem_map] at hm
          rcases hm with ⟨c, hc, hcc⟩
          have : c = [] := by simpa using hcc
          exact nil_mem_codesOf (this ▸ hc)
      rcases hlleaf with ⟨v1, rfl⟩
      rcases hrleaf with ⟨v2, rfl⟩
      have hc : codesOf (HTree.node (HTree.leaf v1) (HTree.leaf v2)) = [[48], [49]] := rfl
      rw [hc] at h
      have hX : X = 0 := by
        have hcoe : (↑([[48], [49]] : List Code) : Multiset Code)
            = [48] ::ₘ [49] ::ₘ 0 := rfl
        rw [hcoe] at h
        exact ((Multiset.cons_inj_right _).mp ((Multiset.cons_inj_right _).mp h)).symm
      refine ⟨HTree.leaf v1, ?_⟩
      simp [codesOf, leafCodes, hX]
  | cons ch u2 ih =>
    intro t X h
    have hmem48 : (ch :: u2) ++ [48] ∈ codesOf t := by
      rw [← Multiset.mem_coe, h]; simp
    have hmem49 : (ch :: u2) ++ [49] ∈ codesOf t := by
      rw [← Multiset.mem_coe, h]; simp
    match t with
    | .leaf v => simp [codesOf, leafCodes] at hmem48
    | .node l r =>
      have hch : ch = 48 ∨ ch = 49 :=
        codesOf_chars _ _ hmem48 ch (by simp)
      have hmapeq : (↑(codesOf (HTree.node l r)) : Multiset Code)
          = Multiset.map (fun c => 48 :: c) ↑(codesOf l)
            + Multiset.map (fun c => 49 :: c) ↑(codesOf r) := by
        rw [codesOf_node]
        simp
      rcases hch with rfl | rfl
      · -- both siblings descend left
        have h48l : u2 ++ [48] ∈ codesOf l := by
          rw [codesOf_node] at hmem48
          rcases List.mem_append.mp hmem48 with hm | hm
          · simp only [List.mem_map] at hm
            rcases hm with ⟨c, hc, hcc⟩
            have : c = u2 ++ [48] := by simpa using hcc
            exact this ▸ hc
          · simp only [List.mem_map] at hm
            rcases hm with ⟨c, _, hcc⟩
            simp at hcc
        have h49l : u2 ++ [49] ∈ codesOf l := by
          rw [codesOf_node] at hmem49
          rcases List.mem_append.mp hmem49 with hm | hm
          · simp only [List.mem_map] at hm
            rcases hm with ⟨c, hc, hcc⟩
            have : c = u2 ++ [49] := by simpa using hcc
            exact this ▸ hc
          · simp only [List.mem_map] at hm
            rcases hm with ⟨c, _, hcc⟩
            simp at hcc
      -- decompose codesOf l
        have hne : u2 ++ [49] ≠ u2 ++ [48] := by simp
        have h1 : (u2 ++ [48]) ∈ (↑(codesOf l) : Multiset Code) := by
          simpa using h48l
        have h2 : (u2 ++ [49]) ∈ (↑(codesOf l) : Multiset Code).erase (u2 ++ [48]) :=
          Multiset.mem_erase_of_ne hne |>.mpr (by simpa using h49l)
        set Y := ((↑(codesOf l) : Multiset Code).erase (u2 ++ [48])).erase (u2 ++ [49]) with hY
        have hdecomp : (↑(codesOf l) : Multiset Code)
            = (u2 ++ [48]) ::ₘ (u2 ++ [49]) ::ₘ Y := by
          rw [hY]
          rw [Multiset.cons_erase h2, Multiset.cons_erase h1]
        rcases ih l Y hdecomp with ⟨l2, hl2⟩
        refine ⟨HTree.node l2 r, ?_⟩
        have hmapeq2 : (↑(codesOf (HTree.node l2 r)) : Multiset Code)
            = Multiset.map (fun c => 48 :: c) ↑(codesOf l2)
              + Multiset.map (fun c => 49 :: c) ↑(codesOf r) := by
          rw [codesOf_node]; simp
        rw [hmapeq2, hl2]
        rw [hmapeq, hdecomp] at h
        simp only [Multiset.map_cons, Multiset.cons_add] at h ⊢
        have hcanc : Multiset.map (fun c => 48 :: c) Y
            + Multiset.map (fun c => 49 :: c) ↑(codesOf r) = X :=
          (Multiset.cons_inj_right _).mp ((Multiset.cons_inj_right _).mp h)
        rw [hcanc]
      · -- both siblings descend right
        have h48r : u2 ++ [48] ∈ codesOf r := by
          rw [codesOf_node] at hmem48
          rcases List.mem_append.mp hmem48 with hm | hm
          · simp only [List.mem_map] at hm
            rcases hm with ⟨c, _, hcc⟩
            simp at hcc
          · simp only [List.mem_map] at hm
            rcases hm with ⟨c, hc, hcc⟩
            have : c = u2 ++ [48] := by simpa using hcc
            exact this ▸ hc
        have h49r : u2 ++ [49] ∈ codesOf r := by
          rw [codesOf_node] at hmem49
          rcases List.mem_append.mp hmem49 with hm | hm
          · simp only [List.mem_map] at hm
            rcases hm with ⟨c, _, hcc⟩
            simp at hcc
          · simp only [List.mem_map] at hm
            rcases hm with ⟨c, hc, hcc⟩
            have : c = u2 ++ [49] := by simpa using hcc
            exact this ▸ hc
        have hne : u2 ++ [49] ≠ u2 ++ [48] := by simp
        have h1 : (u2 ++ [48]) ∈ (↑(codesOf r) : Multiset Code) := by
          simpa using h48r
        have h2 : (u2 ++ [49]) ∈ (↑(codesOf r) : Multiset Code).erase (u2 ++ [48]) :=
          Multiset.mem_erase_of_ne hne |>.mpr (by simpa using h49r)
        set Y := ((↑(codesOf r) : Multiset Code).erase (u2 ++ [48])).erase (u2 ++ [49]) with hY
        have hdecomp : (↑(codesOf r) : Multiset Code)
            = (u2 ++ [48]) ::ₘ (u2 ++ [49]) ::ₘ Y := by
          rw [hY]
          rw [Multiset.cons_erase h2, Multiset.cons_erase h1]
        rcases ih r Y hdecomp with ⟨r2, hr2⟩
        refine ⟨HTree.node l r2, ?_⟩
        have hmapeq2 : (↑(codesOf (HTree.node l r2)) : Multiset Code)
            = Multiset.map (fun c => 48 :: c) ↑(codesOf l)
              + Multiset.map (fun c => 49 :: c) ↑(codesOf r2) := by
          rw [codesOf_node]; simp
        rw [hmapeq2, hr2]
        rw [hmapeq, hdecomp] at h
        simp only [Multiset.map_cons, Multiset.add_cons] at h ⊢
        have hcanc : Multiset.map (fun c => 48 :: c) ↑(codesOf l)
            + Multiset.map (fun c => 49 :: c) Y = X :=
          (Multiset.cons_inj_right _).mp ((Multiset.cons_inj_right _).mp h)
        rw [hcanc]

/-! ### The two largest keys of a treelike working list are siblings -/

theorem prefix_of_prefix_concat {p u : Code} {x : Nat}
    (hp : p <+: u ++ [x]) (hlen : p.length ≤ u.length) : p <+: u := by
  have h1 : p = (u ++ [x]).take p.length := List.prefix_iff_eq_take.mp hp
  rw [List.take_append_eq_append_take, Nat.sub_eq_zero_of_le hlen, List.take_zero,
    List.append_nil] at h1
  exact h1 ▸ List.take_prefix _ _

theorem last_two_siblings
    (init : List (Code × HTree)) (n1 n2 : Code × HTree) (t0 : HTree)
    (hsort : (init ++ [n1, n2]).Pairwise (fun a b => codeKeyLe a.1 b.1 = true))
    (hperm : (↑(codesOf t0) : Multiset Code) = ↑((init ++ [n1, n2]).map Prod.fst)) :
    ∃ u : Code, n1.1 = u ++ [48] ∧ n2.1 = u ++ [49] := by
  set l := init ++ [n1, n2] with hl
  set cs := l.map Prod.fst with hcs
  have hperm2 : (codesOf t0).Perm cs := Multiset.coe_eq_coe.mp hperm
  have hnodup : cs.Nodup := hperm2.nodup (codesOf_nodup t0)
  have hmemcs : ∀ c ∈ cs, c ∈ codesOf t0 := fun c hc => hperm2.symm.subset hc
  have hn2cs : n2.1 ∈ cs := by
    simp [hcs, hl]
  have hn1cs : n1.1 ∈ cs := by
    simp [hcs, hl]
  -- t0 is internal
  obtain ⟨l0, r0, rfl⟩ : ∃ l0 r0, t0 = HTree.node l0 r0 := by
    match t0 with
    | .leaf v =>
      exfalso
      have hlen := hperm2.length_eq
      simp only [codesOf, leafCodes, List.map_cons, List.map_nil, List.length_cons,
        List.length_nil, hcs, hl] at hlen
      simp at hlen
    | .node a b => exact ⟨a, b, rfl⟩
  have hne_nil : ∀ c ∈ cs, c ≠ [] := by
    intro c hc
    have := hmemcs c hc
    simp only [codesOf, List.mem_map] at this
    rcases this with ⟨e, he, rfl⟩
    exact leafCodes_code_ne_nil e he
  have hchars : ∀ c ∈ cs, ∀ ch ∈ c, ch = 48 ∨ ch = 49 :=
    fun c hc => codesOf_chars _ c (hmemcs c hc)
  -- sortedness unpacked
  rw [hl] at hsort
  rw [List.pairwise_append] at hsort
  obtain ⟨hsInit, hsPair, hcross⟩ := hsort
  have hle12 : codeKeyLe n1.1 n2.1 = true := by
    have := List.pairwise_cons.mp hsPair
    exact this.1 n2 (by simp)
  have hleAll2 : ∀ c ∈ cs, codeKeyLe c n2.1 = true := by
    intro c hc
    rw [hcs, hl, List.map_append] at hc
    rcases List.mem_append.mp hc with hc1 | hc2
    · rcases List.mem_map.mp hc1 with ⟨x, hx, rfl⟩
      exact hcross x hx n2 (by simp)
    · simp only [List.map_cons, List.map_nil] at hc2
      rcases List.mem_cons.mp hc2 with rfl | hc3
      · exact hle12
      · rcases List.mem_cons.mp hc3 with rfl | hc4
        · rw [codeKeyLe_iff]; exact Or.inr ⟨rfl, strLe_refl _⟩
        · simp at hc4
  set L := n2.1.length with hL
  have hmaxlen : ∀ c ∈ cs, c.length ≤ L := by
    intro c hc
    have := codeKeyLe_iff.mp (hleAll2 c hc)
    rcases this with h | ⟨h, _⟩ <;> omega
  have hdepthL : depth (HTree.node l0 r0) = L := by
    apply le_antisymm
    · rcases exists_leafCode_len_eq_depth (HTree.node l0 r0) with ⟨e, he, hlen⟩
      have : e.2 ∈ cs := hperm2.subset (mem_codesOf_of_mem he)
      rw [← hlen]
      exact hmaxlen _ this
    · have hmem : n2.1 ∈ codesOf (HTree.node l0 r0) := hmemcs n2.1 hn2cs
      simp only [codesOf, List.mem_map] at hmem
      rcases hmem with ⟨e, he, hee⟩
      have hle := leafCodes_len_le_depth _ e he
      rw [hee] at hle
      rw [hL]
      exact hle
  -- n2.1 ends in 49
  have hn2ne : n2.1 ≠ [] := hne_nil _ hn2cs
  set u := n2.1.dropLast with hu
  have hsplit : n2.1 = u ++ [n2.1.getLast hn2ne] := by
    rw [hu]
    exact (List.dropLast_append_getLast hn2ne).symm
  have hulen : u.length + 1 = L := by
    rw [hL, hsplit]
    simp
  have huchars : ∀ ch ∈ u, ch = 48 ∨ ch = 49 := by
    intro ch hch
    exact hchars n2.1 hn2cs ch (List.dropLast_sublist n2.1 |>.subset (hu ▸ hch))
  have hcover48 : (u ++ [48]) ∈ cs := by
    rcases codesOf_cover (HTree.node l0 r0) (u ++ [48])
        (by intro ch hch
            rcases List.mem_append.mp hch with h | h
            · exact huchars ch h
            · simp at h; simp [h])
        (by rw [hdepthL]; simp [← hulen]) with ⟨p, hp, hpre⟩
    by_cases hlen : p.length = u.length + 1
    · have : p = u ++ [48] := hpre.eq_of_length (by simp [hlen])
      exact this ▸ hperm2.subset hp
    · exfalso
      have hlt : p.length ≤ u.length := by
        have := hpre.length_le
        simp at this
        omega
      have hpu : p <+: u := prefix_of_prefix_concat hpre hlt
      have hpn2 : p <+: n2.1 := by
        rw [hsplit]
        exact hpu.trans (List.prefix_append u _)
      have hpne : p ≠ n2.1 := by
        intro hcontra
        rw [hcontra] at hlt
        omega
      exact codesOf_prefix_free _ p hp n2.1 (hmemcs _ hn2cs) hpne hpn2
  have hlast49 : n2.1 = u ++ [49] := by
    have hlastmem := hchars n2.1 hn2cs _ (List.getLast_mem hn2ne)
    rcases hlastmem with h48 | h49
    · exfalso
      -- sibling u ++ [49] would be in cs and lexicographically larger
      have hcover49 : (u ++ [49]) ∈ cs := by
        rcases codesOf_cover (HTree.node l0 r0) (u ++ [49])
            (by intro ch hch
                rcases List.mem_append.mp hch with h | h
                · exact huchars ch h
                · simp at h; simp [h])
            (by rw [hdepthL]; simp [← hulen]) with ⟨p, hp, hpre⟩
        by_cases hlen : p.length = u.length + 1
        · have : p = u ++ [49] := hpre.eq_of_length (by simp [hlen])
          exact this ▸ hperm2.subset hp
        · exfalso
          have hlt : p.length ≤ u.length := by
            have := hpre.length_le
            simp at this
            omega
          have hpu : p <+: u := prefix_of_prefix_concat hpre hlt
          have hpn2 : p <+: n2.1 := by
            rw [hsplit]
            exact hpu.trans (List.prefix_append u _)
          have hpne : p ≠ n2.1 := by
            intro hcontra
            rw [hcontra] at hlt
            omega
          exact codesOf_prefix_free _ p hp n2.1 (hmemcs _ hn2cs) hpne hpn2
      have hneq : u ++ [49] ≠ n2.1 := by
        rw [hsplit, h48]
        intro hcontra
        have := List.append_inj_right hcontra (by rfl)
        simp at this
      have hle : codeKeyLe (u ++ [49]) n2.1 = true := hleAll2 _ hcover49
      rw [codeKeyLe_iff] at hle
      rcases hle with h | ⟨_, hstr⟩
      · simp only [List.length_append, List.length_cons, List.length_nil] at h
        omega
      · rw [hsplit, h48] at hstr
        have := strLe_append_last hstr
        omega
    · rw [hsplit, h49]
  -- the second largest is u ++ [48]
  obtain ⟨y, hy, hy1⟩ : ∃ y ∈ l, y.1 = u ++ [48] := by
    rcases List.mem_map.mp hcover48 with ⟨y, hy, hyy⟩
    exact ⟨y, hy, hyy⟩
  have hn1n2ne : n1.1 ≠ n2.1 := by
    intro hcontra
    rw [hcs, hl] at hnodup
    simp only [List.map_append, List.map_cons, List.map_nil] at hnodup
    rcases List.nodup_append.mp hnodup with ⟨_, hnod2, _⟩
    rcases List.nodup_cons.mp hnod2 with ⟨hn, _⟩
    exact hn (by simp [hcontra])
  rcases List.mem_append.mp hy with hyInit | hyPair
  · -- y sits strictly before n1: its key lies strictly between the siblings, impossible
    exfalso
    have hyn1 : codeKeyLe (u ++ [48]) n1.1 = true := hy1 ▸ hcross y hyInit n1 (by simp)
    have hn1len : n1.1.length ≤ L := hmaxlen _ hn1cs
    rw [codeKeyLe_iff] at hyn1 hle12
    have hlen48 : (u ++ [48]).length = L := by simp [← hulen]
    have hn1L : n1.1.length = L := by
      rcases hyn1 with h | ⟨h, _⟩ <;> omega
    have hstr1 : strLe (u ++ [48]) n1.1 = true := by
      rcases hyn1 with h | ⟨_, h⟩
      · omega
      · exact h
    have hstr2 : strLe n1.1 (u ++ [49]) = true := by
      rcases hle12 with h | ⟨_, h⟩
      · exfalso; omega
      · exact hlast49 ▸ h
    rcases strLe_between (by omega) hstr1 hstr2 with hcase | hcase
    · -- n1.1 = u ++ [48] = y.1 contradicts nodup
      have hyne : y.1 ≠ n1.1 := by
        intro hcontra
        rw [hcs, hl] at hnodup
        simp only [List.map_append, List.map_cons, List.map_nil] at hnodup
        rcases List.nodup_append.mp hnodup with ⟨_, _, hdisj⟩
        exact hdisj (List.mem_map_of_mem Prod.fst hyInit) (by simp [hcontra])
      exact hyne (hy1.trans hcase.symm)
    · exact hn1n2ne (hcase.trans hlast49.symm)
  · rcases List.mem_cons.mp hyPair with rfl | hyn2
    · exact ⟨u, hy1, hlast49⟩
    · exfalso
      have hyn2e : y = n2 := List.mem_singleton.mp hyn2
      rw [hyn2e, hlast49] at hy1
      have := List.append_inj_right hy1 rfl
      simp at this

/-! ### Correctness of the tree-rebuilding loop of `Node.decode` -/

/-- The table entries represented by one working-list pair: the leaves of
its tree, each prefixed by the pair's key. -/
def pairLeaves (p : Code × HTree) : List (Symbol × Code) :=
  (leafCodes p.2).map (fun e => (e.1, p.1 ++ e.2))

theorem pairLeaves_merge {n1 n2 : Code × HTree} {u : Code}
    (h1 : n1.1 = u ++ [48]) (h2 : n2.1 = u ++ [49]) :
    pairLeaves (u, HTree.node n1.2 n2.2) = pairLeaves n1 ++ pairLeaves n2 := by
  simp only [pairLeaves, leafCodes, List.map_append, List.map_map]
  refine congrArg₂ (· ++ ·) ?_ ?_
  · apply List.map_congr_left
    intro e _
    simp [h1, List.append_assoc]
  · apply List.map_congr_left
    intro e _
    simp [h2, List.append_assoc]

theorem perm_flatMap {α β : Type} (f : α → List β) {l l2 : List α}
    (h : l.Perm l2) : (l.flatMap f).Perm (l2.flatMap f) := by
  induction h with
  | nil => exact List.Perm.refl _
  | cons a _ ih => simpa using ih.append_left (f a)
  | swap a b l =>
    simp only [List.flatMap_cons]
    rw [← List.append_assoc, ← List.append_assoc]
    exact (List.perm_append_comm.append_right _)
  | trans _ _ ih1 ih2 => exact ih1.trans ih2

/-- When the working list has a single pair, its key is empty (given the
treelike invariant) and its tree carries exactly the represented table. -/
theorem mergeCodes_single_case (x : Code × HTree)
    (htl : ∃ t0 : HTree, (↑(codesOf t0) : Multiset Code) = ↑([x].map Prod.fst)) :
    x.1 = [] ∧ [x].flatMap pairLeaves = leafCodes x.2 := by
  rcases htl with ⟨t0, ht0⟩
  have hperm : (codesOf t0).Perm [x.1] := Multiset.coe_eq_coe.mp (by simpa using ht0)
  have hsing : codesOf t0 = [x.1] := List.perm_singleton.mp hperm
  have hx1 : x.1 = [] := by
    match t0, hsing with
    | .leaf v, h => simpa [codesOf, leafCodes] using h.symm
    | .node a b, h =>
      exfalso
      have := congrArg List.length h
      rw [codesOf_node] at this
      simp only [List.length_append, List.length_map, List.length_cons,
        List.length_nil] at this
      have ha := leafCodes_ne_nil a
      have hb := leafCodes_ne_nil b
      have ha2 : 0 < (codesOf a).length := by
        simp only [codesOf, List.length_map]
        exact List.length_pos.mpr ha
      have hb2 : 0 < (codesOf b).length := by
        simp only [codesOf, List.length_map]
        exact List.length_pos.mpr hb
      omega
  refine ⟨hx1, ?_⟩
  simp only [List.flatMap_cons, List.flatMap_nil, List.append_nil, pairLeaves, hx1]
  simp

theorem mergeCodesGo_spec : ∀ (fuel : Nat) (l : List (Code × HTree)),
    l.length ≤ fuel + 1 →
    l.Pairwise (fun a b => codeKeyLe a.1 b.1 = true) →
    (∃ t0 : HTree, (↑(codesOf t0) : Multiset Code) = ↑(l.map Prod.fst)) →
    l ≠ [] →
    ∃ t : HTree, mergeCodesGo fuel l = [([], t)] ∧
      (↑(l.flatMap pairLeaves) : Multiset (Symbol × Code)) = ↑(leafCodes t) := by
  intro fuel
  induction fuel with
  | zero =>
    intro l hlen _ htl hne
    match l, hlen with
    | [x], _ =>
      rcases mergeCodes_single_case x htl with ⟨hx1, hx2⟩
      refine ⟨x.2, ?_, ?_⟩
      · simp [mergeCodesGo, ← hx1]
      · rw [hx2]
  | succ fuel ih =>
    intro l hlen hsort htl hne
    by_cases hlen1 : l.length ≤ 1
    · match l, hlen1 with
      | [x], _ =>
        rcases mergeCodes_single_case x htl with ⟨hx1, hx2⟩
        refine ⟨x.2, ?_, ?_⟩
        · simp [mergeCodesGo, ← hx1]
        · rw [hx2]
    · have hlen2 : 2 ≤ l.length := by omega
      obtain ⟨n2, n1, rest, hrev⟩ :
          ∃ n2 n1 rest, l.reverse = n2 :: n1 :: rest := by
        match hr : l.reverse with
        | [] =>
          exfalso
          have hlen0 : l.reverse.length = 0 := by rw [hr]; rfl
          rw [List.length_reverse] at hlen0
          omega
        | [x] =>
          exfalso
          have hlen0 : l.reverse.length = 1 := by rw [hr]; rfl
          rw [List.length_reverse] at hlen0
          omega
        | a :: b :: r => exact ⟨a, b, r, rfl⟩
      have hldecomp : l = rest.reverse ++ [n1, n2] := by
        have h := congrArg List.reverse hrev
        simp only [List.reverse_reverse] at h
        rw [h]
        simp
      rcases htl with ⟨t0, ht0⟩
      rw [hldecomp] at ht0 hsort
      rcases last_two_siblings rest.reverse n1 n2 t0 hsort ht0 with ⟨u, h1, h2⟩
      -- the recursive call operates on the re-sorted merged list
      set A := rest.reverse.map Prod.fst with hA
      set l2 := sortNodes (rest.reverse ++ [(n1.1.dropLast, HTree.node n1.2 n2.2)]) with hl2
      have hdrop : n1.1.dropLast = u := by
        rw [h1]
        exact List.dropLast_concat
      have hunfold : mergeCodesGo (fuel + 1) l = mergeCodesGo fuel l2 := by
        rw [mergeCodesGo, if_neg hlen1, hrev]
      have hrestlen : l.length = rest.length + 2 := by
        have h := congrArg List.length hrev
        simp only [List.length_reverse, List.length_cons] at h
        omega
      have hlen3 : l2.length ≤ fuel + 1 := by
        rw [hl2, sortNodes, length_pySort]
        simp only [List.length_append, List.length_reverse, List.length_cons,
          List.length_nil]
        omega
      have hsort2 : l2.Pairwise (fun a b => codeKeyLe a.1 b.1 = true) := by
        rw [hl2, sortNodes]
        exact pySort_sorted (fun (a b : Code × HTree) => codeKeyLe a.1 b.1)
          (fun (a b c : Code × HTree) => codeKeyLe_trans a.1 b.1 c.1)
          (fun (a b : Code × HTree) => codeKeyLe_total a.1 b.1) _
      have hperm_l2 : l2.Perm (rest.reverse ++ [(n1.1.dropLast, HTree.node n1.2 n2.2)]) := by
        rw [hl2, sortNodes]
        exact pySort_perm _ _
      have htl2 : ∃ t2 : HTree, (↑(codesOf t2) : Multiset Code) = ↑(l2.map Prod.fst) := by
        have hshape : (↑(codesOf t0) : Multiset Code) = (u ++ [48]) ::ₘ (u ++ [49]) ::ₘ ↑A := by
          rw [ht0]
          have hp : ((rest.reverse ++ [n1, n2]).map Prod.fst).Perm
              ((u ++ [48]) :: (u ++ [49]) :: A) := by
            rw [List.map_append, hA]
            simp only [List.map_cons, List.map_nil, h1, h2]
            exact List.perm_append_comm
          rw [Multiset.coe_eq_coe.mpr hp]
          rfl
        rcases tree_surgery u t0 (↑A) hshape with ⟨t2, ht2⟩
        refine ⟨t2, ?_⟩
        rw [ht2]
        have hmapped : (l2.map Prod.fst).Perm (A ++ [u]) := by
          have hm := hperm_l2.map Prod.fst
          simp only [List.map_append, List.map_cons, List.map_nil, hdrop, ← hA] at hm
          exact hm
        have hp2 : (u :: A).Perm (l2.map Prod.fst) :=
          (@List.perm_append_comm _ [u] A).trans hmapped.symm
        rw [Multiset.cons_coe, Multiset.coe_eq_coe]
        exact hp2
      have hne2 : l2 ≠ [] := by
        intro hcon
        have := congrArg List.length hcon
        rw [hl2, sortNodes, length_pySort] at this
        simp at this
      rcases ih l2 hlen3 hsort2 htl2 hne2 with ⟨t, hmerge, hpairs⟩
      refine ⟨t, by rw [hunfold, hmerge], ?_⟩
      rw [← hpairs]
      apply Multiset.coe_eq_coe.mpr
      have hp3 : (l.flatMap pairLeaves).Perm
          ((rest.reverse ++ [(n1.1.dropLast, HTree.node n1.2 n2.2)]).flatMap pairLeaves) := by
        rw [hldecomp]
        simp only [List.flatMap_append, List.flatMap_cons, List.flatMap_nil,
          List.append_nil]
        rw [hdrop, pairLeaves_merge h1 h2]
      exact hp3.trans (perm_flatMap pairLeaves hperm_l2.symm)

/-! ### The decode bit-walk -/

/-- The walk bit denoted by a code character (`'1'` ↦ 1, `'0'` ↦ 0). -/
def bitOfChar (c : Nat) : Nat := if c = 49 then 1 else 0

theorem walkSeg_append (root : HTree) : ∀ (xs ys : List Nat) (cur : HTree) (acc : List Nat),
    walkSeg root cur acc (xs ++ ys)
      = match walkSeg root cur acc xs with
        | none => none
        | some s => walkSeg root s.1 s.2 ys := by
  intro xs
  induction xs with
  | nil =>
    intro ys cur acc
    simp [walkSeg]
  | cons b rest ih =>
    intro ys cur acc
    match cur with
    | .leaf v => simp [walkSeg]
    | .node lc rc =>
      simp only [List.cons_append, walkSeg]
      cases hif : (if b ≠ 0 then rc else lc) with
      | leaf v => exact ih ys root (acc ++ v)
      | node a c => exact ih ys (HTree.node a c) acc

theorem chunkWalkGo_eq (root : HTree) : ∀ (fuel : Nat) (bits : List Nat)
    (cur : HTree) (acc : List Nat), bits.length ≤ fuel →
    chunkWalkGo root fuel cur acc bits = (walkSeg root cur acc bits).map Prod.snd := by
  intro fuel
  induction fuel with
  | zero =>
    intro bits cur acc hlen
    have hb : bits = [] := List.length_eq_zero.mp (Nat.le_zero.mp hlen)
    subst hb
    simp [chunkWalkGo, walkSeg]
  | succ fuel ih =>
    intro bits cur acc hlen
    by_cases hb : bits = []
    · subst hb
      simp [chunkWalkGo, walkSeg]
    · rw [chunkWalkGo, if_neg hb]
      have hsplit : bits.take 8 ++ bits.drop 8 = bits := List.take_append_drop 8 bits
      conv_rhs => rw [← hsplit]
      rw [walkSeg_append]
      cases hw : walkSeg root cur acc (bits.take 8) with
      | none => simp
      | some s =>
        simp only [Option.map]
        exact ih (bits.drop 8) s.1 s.2 (by
          simp only [List.length_drop]
          have : 0 < bits.length := List.length_pos.mpr hb
          omega)

theorem walkSeg_step_zero (root lc rc : HTree) (acc rest : List Nat) :
    walkSeg root (HTree.node lc rc) acc (0 :: rest)
      = match lc with
        | .leaf v => walkSeg root root (acc ++ v) rest
        | .node a b => walkSeg root (HTree.node a b) acc rest := rfl

theorem walkSeg_step_one (root lc rc : HTree) (acc rest : List Nat) :
    walkSeg root (HTree.node lc rc) acc (1 :: rest)
      = match rc with
        | .leaf v => walkSeg root root (acc ++ v) rest
        | .node a b => walkSeg root (HTree.node a b) acc rest := rfl

theorem walkSeg_code (root : HTree) : ∀ (c : Code) (cur : HTree) (v : Symbol)
    (rest acc : List Nat),
    (v, c) ∈ leafCodes cur → c ≠ [] →
    walkSeg root cur acc (c.map bitOfChar ++ rest) = walkSeg root root (acc ++ v) rest := by
  intro c
  induction c with
  | nil =>
    intro _ _ _ _ _ hne
    exact absurd rfl hne
  | cons ch c2 ih =>
    intro cur v rest acc hmem _
    match cur with
    | .leaf w =>
      exfalso
      simp [leafCodes] at hmem
    | .node lc rc =>
      simp only [leafCodes, List.mem_append, List.mem_map] at hmem
      rcases hmem with ⟨⟨e1, e2⟩, he, heq⟩ | ⟨⟨e1, e2⟩, he, heq⟩
      · rw [Prod.mk.injEq] at heq
        obtain ⟨he1, heq2⟩ := heq
        injection heq2 with h48 hc2
        subst he1
        subst hc2
        subst h48
        simp only [List.map_cons, List.cons_append]
        rw [show bitOfChar 48 = 0 from rfl, walkSeg_step_zero]
        match e2, he with
        | [], he =>
          have hlc : lc = HTree.leaf e1 := by
            match lc, he with
            | .leaf w, he =>
              simp only [leafCodes, List.mem_singleton, Prod.mk.injEq] at he
              rw [he.1]
            | .node a b, he =>
              exact absurd rfl (leafCodes_code_ne_nil _ he)
          rw [hlc]
          simp [walkSeg]
        | d :: c3, he =>
          obtain ⟨a, b, rfl⟩ : ∃ a b, lc = HTree.node a b := by
            match lc, he with
            | .leaf w, he => simp [leafCodes] at he
            | .node a b, he => exact ⟨a, b, rfl⟩
          exact ih (HTree.node a b) e1 rest acc he (by simp)
      · rw [Prod.mk.injEq] at heq
        obtain ⟨he1, heq2⟩ := heq
        injection heq2 with h49 hc2
        subst he1
        subst hc2
        subst h49
        simp only [List.map_cons, List.cons_append]
        rw [show bitOfChar 49 = 1 from rfl, walkSeg_step_one]
        match e2, he with
        | [], he =>
          have hrc : rc = HTree.leaf e1 := by
            match rc, he with
            | .leaf w, he =>
              simp only [leafCodes, List.mem_singleton, Prod.mk.injEq] at he
              rw [he.1]
            | .node a b, he =>
              exact absurd rfl (leafCodes_code_ne_nil _ he)
          rw [hrc]
          simp [walkSeg]
        | d :: c3, he =>
          obtain ⟨a, b, rfl⟩ : ∃ a b, rc = HTree.node a b := by
            match rc, he with
            | .leaf w, he => simp [leafCodes] at he
            | .node a b, he => exact ⟨a, b, rfl⟩
          exact ih (HTree.node a b) e1 rest acc he (by simp)

/-- Walking the concatenation of the codes of a list of table entries emits
exactly their symbols, ending back at the root. -/
theorem walkSeg_table (root : HTree) :
    ∀ (entries : List (Symbol × Code)) (acc : List Nat),
    (∀ e ∈ entries, e ∈ leafCodes root ∧ e.2 ≠ []) →
    walkSeg root root acc (entries.flatMap (fun e => e.2.map bitOfChar))
      = some (root, acc ++ entries.flatMap (fun e => e.1)) := by
  intro entries
  induction entries with
  | nil =>
    intro acc _
    simp [walkSeg]
  | cons e rest ih =>
    intro acc hmem
    simp only [List.flatMap_cons]
    rw [walkSeg_code root e.2 root e.1 _ acc (hmem e (by simp)).1 (hmem e (by simp)).2]
    rw [ih (acc ++ e.1) (fun x hx => hmem x (by simp [hx]))]
    simp [List.append_assoc]

/-! ### The encoder -/

set_option maxHeartbeats 800000 in
theorem byteToBits_pyIntBase2 : ∀ (s : Code), s.length = 8 →
    byteToBits (pyIntBase2 s) = s.map bitOfChar := by
  intro s hlen
  match s, hlen with
  | [a, b, c, d, e, f, g, h], _ =>
    have hb : ∀ x : Nat, bitOfChar x = 0 ∨ bitOfChar x = 1 := by
      intro x
      unfold bitOfChar
      split <;> simp
    have hN : pyIntBase2 [a, b, c, d, e, f, g, h]
        = 128 * bitOfChar a + 64 * bitOfChar b + 32 * bitOfChar c + 16 * bitOfChar d
          + 8 * bitOfChar e + 4 * bitOfChar f + 2 * bitOfChar g + bitOfChar h := by
      simp only [pyIntBase2, List.foldl, bitOfChar]
      ring
    rw [hN]
    simp only [byteToBits, List.map_cons, List.map_nil, List.cons.injEq, and_true]
    have ha := hb a
    have hb2 := hb b
    have hc := hb c
    have hd := hb d
    have he := hb e
    have hf := hb f
    have hg := hb g
    have hh := hb h
    omega

theorem pyIntBase2_aux : ∀ (s : Code) (a : Nat),
    List.foldl (fun x c => 2 * x + (if c = 49 then 1 else 0)) a s
      < (a + 1) * 2 ^ s.length := by
  intro s
  induction s with
  | nil => intro a; simp
  | cons c s2 ih =>
    intro a
    simp only [List.foldl, List.length_cons]
    have h1 := ih (2 * a + (if c = 49 then 1 else 0))
    have h2 : (2 * a + (if c = 49 then 1 else 0) + 1) * 2 ^ s2.length
        ≤ (a + 1) * 2 ^ (s2.length + 1) := by
      have hle : 2 * a + (if c = 49 then 1 else 0) + 1 ≤ (a + 1) * 2 := by
        split <;> omega
      calc (2 * a + (if c = 49 then 1 else 0) + 1) * 2 ^ s2.length
          ≤ ((a + 1) * 2) * 2 ^ s2.length := Nat.mul_le_mul_right _ hle
        _ = (a + 1) * 2 ^ (s2.length + 1) := by ring
    omega

theorem pyIntBase2_lt (s : Code) : pyIntBase2 s < 2 ^ s.length :=
  by simpa using pyIntBase2_aux s 0

theorem pyIntBase2_lt_256 (s : Code) (h : s.length ≤ 8) : pyIntBase2 s < 256 := by
  have h1 := pyIntBase2_lt s
  have h2 : (2 : Nat) ^ s.length ≤ 2 ^ 8 := Nat.pow_le_pow_right (by omega) h
  simp only [show (2 : Nat) ^ 8 = 256 by norm_num] at h2
  omega

theorem drainBufferGo_spec : ∀ (fuel : Nat) (bin_buffer : Code) (write_buffer : List Nat),
    bin_buffer.length ≤ fuel + 7 →
    (drainBufferGo fuel bin_buffer write_buffer).1.length = bin_buffer.length % 8 ∧
    (drainBufferGo fuel bin_buffer write_buffer).2.flatMap byteToBits
        ++ (drainBufferGo fuel bin_buffer write_buffer).1.map bitOfChar
      = write_buffer.flatMap byteToBits ++ bin_buffer.map bitOfChar ∧
    8 * (drainBufferGo fuel bin_buffer write_buffer).2.length
        + (drainBufferGo fuel bin_buffer write_buffer).1.length
      = 8 * write_buffer.length + bin_buffer.length ∧
    (∀ x ∈ (drainBufferGo fuel bin_buffer write_buffer).2, x ∈ write_buffer ∨ x < 256) := by
  intro fuel
  induction fuel with
  | zero =>
    intro bin write hlen
    have h1 : drainBufferGo 0 bin write = (bin, write) := rfl
    rw [h1]
    refine ⟨?_, rfl, rfl, fun x hx => Or.inl hx⟩
    show bin.length = bin.length % 8
    omega
  | succ fuel ih =>
    intro bin write hlen
    by_cases h8 : 8 ≤ bin.length
    · have hlen2 : (bin.drop 8).length ≤ fuel + 7 := by
        simp only [List.length_drop]
        omega
      have hrec := ih (bin.drop 8) (write ++ [pyIntBase2 (bin.take 8)]) hlen2
      simp only [drainBufferGo, if_pos h8]
      refine ⟨?_, ?_, ?_, ?_⟩
      · rw [hrec.1]
        simp only [List.length_drop]
        omega
      · rw [hrec.2.1]
        rw [List.flatMap_append]
        simp only [List.flatMap_cons, List.flatMap_nil, List.append_nil]
        rw [byteToBits_pyIntBase2 (bin.take 8) (by simp [List.length_take]; omega)]
        rw [List.append_assoc, ← List.map_append, List.take_append_drop]
      · rw [hrec.2.2.1]
        simp only [List.length_append, List.length_cons, List.length_nil,
          List.length_drop]
        omega
      · intro x hx
        rcases hrec.2.2.2 x hx with hmem | hlt
        · rcases List.mem_append.mp hmem with h | h
          · exact Or.inl h
          · right
            rcases List.mem_singleton.mp h with rfl
            exact pyIntBase2_lt_256 _ (by simp)
        · exact Or.inr hlt
    · have h1 : drainBufferGo (fuel + 1) bin write = (bin, write) := by
        simp only [drainBufferGo, if_neg h8]
      rw [h1]
      refine ⟨?_, rfl, rfl, fun x hx => Or.inl hx⟩
      show bin.length = bin.length % 8
      omega

/-- The logical bit-stream of a data sequence under a code table: the
concatenation of the table codes of the data symbols, in input order. -/
def dataBits (huffman_dic : List (Symbol × Code)) (str_bytes : List Nat) : Code :=
  str_bytes.flatMap
    (fun b => (((huffman_dic.find? (fun e => decide (e.1 = [b]))).map Prod.snd).getD []))

theorem encodeLoop_spec (huffman_dic : List (Symbol × Code)) :
    ∀ (data : List Nat) (bin_buffer : Code) (write_buffer : List Nat),
    (∀ b ∈ data, (huffman_dic.find? (fun e => decide (e.1 = [b]))).isSome) →
    bin_buffer.length < 8 →
    ∃ bin2 write2,
      encodeLoop huffman_dic data bin_buffer write_buffer = .ok (bin2, write2) ∧
      bin2.length < 8 ∧
      write2.flatMap byteToBits ++ bin2.map bitOfChar
        = write_buffer.flatMap byteToBits
            ++ (bin_buffer ++ dataBits huffman_dic data).map bitOfChar ∧
      8 * write2.length + bin2.length
        = 8 * write_buffer.length + bin_buffer.length
            + (dataBits huffman_dic data).length ∧
      (∀ x ∈ write2, x ∈ write_buffer ∨ x < 256) := by
  intro data
  induction data with
  | nil =>
    intro bin write _ hbin
    refine ⟨bin, write, rfl, hbin, ?_, ?_, fun x hx => Or.inl hx⟩
    · simp [dataBits]
    · simp [dataBits]
  | cons b rest ih =>
    intro bin write hpres hbin
    have hsome := hpres b (by simp)
    rcases Option.isSome_iff_exists.mp hsome with ⟨entry, hentry⟩
    simp only [encodeLoop, hentry, Option.map_some]
    set code := entry.2 with hcode
    have hdrain := drainBufferGo_spec (bin ++ code).length (bin ++ code) write (by omega)
    set s := drainBuffer (bin ++ code) write with hs
    have hs1 : s.1.length < 8 := by
      rw [hs, drainBuffer, hdrain.1]
      omega
    rcases ih s.1 s.2 (fun x hx => hpres x (by simp [hx])) hs1 with
      ⟨bin2, write2, heq, hlen2, hbits, hcount, hmem⟩
    refine ⟨bin2, write2, heq, hlen2, ?_, ?_, ?_⟩
    · rw [hbits, hs, drainBuffer]
      rw [List.map_append, ← List.append_assoc, hdrain.2.1]
      simp only [dataBits, List.flatMap_cons, hentry, Option.map_some, Option.getD_some,
        ← hcode, List.map_append, List.append_assoc]
      rw [show (Option.map Prod.snd (some entry)).getD [] = code from rfl]
    · rw [hcount, hs, drainBuffer]
      have h3 := hdrain.2.2.1
      simp only [dataBits, List.flatMap_cons, hentry, Option.map_some, Option.getD_some,
        ← hcode]
      rw [show (Option.map Prod.snd (some entry)).getD [] = code from rfl]
      simp only [List.length_append] at h3 ⊢
      omega
    · intro x hx
      rcases hmem x hx with hmem2 | hlt
      · rw [hs, drainBuffer] at hmem2
        rcases hdrain.2.2.2 x hmem2 with h | h
        · exact Or.inl h
        · exact Or.inr h
      · exact Or.inr hlt

theorem encode_spec (data : List Nat) (huffman_dic : List (Symbol × Code))
    (hpres : ∀ b ∈ data, (huffman_dic.find? (fun e => decide (e.1 = [b]))).isSome) :
    ∃ packed : List Nat,
      encode data huffman_dic
        = .ok (packed, (8 - (dataBits huffman_dic data).length % 8) % 8) ∧
      packed.flatMap byteToBits
        = (dataBits huffman_dic data).map bitOfChar
            ++ List.replicate ((8 - (dataBits huffman_dic data).length % 8) % 8) 0 ∧
      8 * packed.length
        = (dataBits huffman_dic data).length
            + (8 - (dataBits huffman_dic data).length % 8) % 8 ∧
      (∀ x ∈ packed, x < 256) := by
  rcases encodeLoop_spec huffman_dic data [] [] hpres (by simp) with
    ⟨bin2, write2, heq, hlen2, hbits, hcount, hmem⟩
  set B := dataBits huffman_dic data with hB
  simp only [List.flatMap_nil, List.nil_append, List.length_nil, List.map_nil,
    List.length_map, Nat.mul_zero, Nat.zero_add] at hbits hcount
  have hbin2len : bin2.length = B.length % 8 := by omega
  rw [encode, heq]
  dsimp only
  by_cases hb2 : bin2 = []
  · subst hb2
    simp only [List.length_nil] at hbin2len
    refine ⟨write2, ?_, ?_, ?_, ?_⟩
    · simp only [if_pos rfl]
      rw [← hbin2len]
      rfl
    · simp only [List.map_nil, List.append_nil] at hbits
      rw [hbits, ← hbin2len]
      simp
    · simp only [List.length_nil] at hcount
      omega
    · intro x hx
      rcases hmem x hx with h | h
      · simp at h
      · exact h
  · have hbin2pos : 0 < bin2.length := List.length_pos.mpr hb2
    have hpad : 8 - bin2.length = (8 - B.length % 8) % 8 := by
      rw [← hbin2len]
      omega
    refine ⟨write2 ++ [pyIntBase2 (pyLjust bin2 8)], ?_, ?_, ?_, ?_⟩
    · rw [if_neg hb2, hpad]
    · rw [List.flatMap_append]
      simp only [List.flatMap_cons, List.flatMap_nil, List.append_nil]
      rw [byteToBits_pyIntBase2 (pyLjust bin2 8)
        (by simp [pyLjust, List.length_replicate]; omega)]
      rw [pyLjust, List.map_append, List.map_replicate]
      rw [show bitOfChar 48 = 0 from rfl]
      rw [← List.append_assoc, hbits, ← hpad, hbin2len]
    · simp only [List.length_append, List.length_cons, List.length_nil]
      rw [← hpad]
      omega
    · intro x hx
      rcases List.mem_append.mp hx with h | h
      · rcases hmem x h with h2 | h2
        · simp at h2
        · exact h2
      · rcases List.mem_singleton.mp h with rfl
        exact pyIntBase2_lt_256 _ (by simp [pyLjust]; omega)

/-! ### Association-list lookups -/

theorem find?_eq_some_of_mem {L : List (Symbol × Code)} {k : Symbol} {v : Code}
    (hnd : (L.map Prod.fst).Nodup) (hmem : (k, v) ∈ L) :
    L.find? (fun e => decide (e.1 = k)) = some (k, v) := by
  induction L with
  | nil => simp at hmem
  | cons e rest ih =>
    rw [List.map_cons] at hnd
    rcases List.nodup_cons.mp hnd with ⟨hknd, hnd2⟩
    rcases List.mem_cons.mp hmem with rfl | hmem2
    · rw [List.find?_cons_of_pos _ (by simp)]
    · have hkne : ¬ e.1 = k := by
        intro hcontra
        exact hknd (hcontra ▸ List.mem_map_of_mem Prod.fst hmem2)
      rw [List.find?_cons_of_neg _ (by simpa using hkne)]
      exact ih hnd2 hmem2

theorem exists_value_of_mem_keys {L : List (Symbol × Code)} {k : Symbol}
    (h : k ∈ L.map Prod.fst) : ∃ v, (k, v) ∈ L := by
  rcases List.mem_map.mp h with ⟨e, he, rfl⟩
  exact ⟨e.2, he⟩

/-! ### Correctness of the tree-building loop of `Node.build` -/

theorem insertByWeight_perm (x : Nat × HTree) (l : List (Nat × HTree)) :
    (insertByWeight x l).Perm (x :: l) := by
  unfold insertByWeight
  set A := (l.reverse.dropWhile (fun y => decide (y.1 ≤ x.1))).reverse with hA
  set B := (l.reverse.takeWhile (fun y => decide (y.1 ≤ x.1))).reverse with hB
  have hAB : A ++ B = l := by
    rw [hA, hB, ← List.reverse_append, List.takeWhile_append_dropWhile,
      List.reverse_reverse]
  have h1 : (A ++ x :: B).Perm (x :: (A ++ B)) := List.perm_middle
  rw [hAB] at h1
  exact h1

theorem length_insertByWeight (x : Nat × HTree) (l : List (Nat × HTree)) :
    (insertByWeight x l).length = l.length + 1 :=
  (insertByWeight_perm x l).length_eq

theorem mergeForestGo_spec : ∀ (fuel : Nat) (l : List (Nat × HTree)),
    l.length ≤ fuel + 1 → l ≠ [] →
    ∃ w T, mergeForestGo fuel l = [(w, T)] ∧
      (treeLeaves T).Perm (l.flatMap (fun p => treeLeaves p.2)) := by
  intro fuel
  induction fuel with
  | zero =>
    intro l hlen hne
    match l, hlen, hne with
    | [x], _, _ =>
      exact ⟨x.1, x.2, rfl, by simp⟩
  | succ fuel ih =>
    intro l hlen hne
    by_cases hlen1 : l.length ≤ 1
    · match l, hlen1, hne with
      | [x], _, _ =>
        refine ⟨x.1, x.2, ?_, by simp⟩
        rw [mergeForestGo, if_pos (by simp)]
    · have hlen2 : 2 ≤ l.length := by omega
      obtain ⟨n2, n1, rest, hrev⟩ :
          ∃ n2 n1 rest, l.reverse = n2 :: n1 :: rest := by
        match hr : l.reverse with
        | [] =>
          exfalso
          have hlen0 : l.reverse.length = 0 := by rw [hr]; rfl
          rw [List.length_reverse] at hlen0
          omega
        | [x] =>
          exfalso
          have hlen0 : l.reverse.length = 1 := by rw [hr]; rfl
          rw [List.length_reverse] at hlen0
          omega
        | a :: b :: r => exact ⟨a, b, r, rfl⟩
      have hldecomp : l = rest.reverse ++ [n1, n2] := by
        have h := congrArg List.reverse hrev
        simp only [List.reverse_reverse] at h
        rw [h]
        simp
      have hrestlen : l.length = rest.length + 2 := by
        have h := congrArg List.length hrev
        simp only [List.length_reverse, List.length_cons] at h
        omega
      set l2 := insertByWeight (n1.1 + n2.1, HTree.node n1.2 n2.2) rest.reverse with hl2
      have hunfold : mergeForestGo (fuel + 1) l = mergeForestGo fuel l2 := by
        rw [mergeForestGo, if_neg hlen1, hrev]
      have hlen3 : l2.length ≤ fuel + 1 := by
        rw [hl2, length_insertByWeight]
        simp only [List.length_reverse]
        omega
      have hne2 : l2 ≠ [] := by
        intro hcon
        have := congrArg List.length hcon
        rw [hl2, length_insertByWeight] at this
        simp at this
      rcases ih l2 hlen3 hne2 with ⟨w, T, hmerge, hleaves⟩
      refine ⟨w, T, by rw [hunfold, hmerge], ?_⟩
      have hperm2 : (l2.flatMap (fun p => treeLeaves p.2)).Perm
          (l.flatMap (fun p => treeLeaves p.2)) := by
        have hstep := perm_flatMap (fun p : Nat × HTree => treeLeaves p.2)
          (insertByWeight_perm (n1.1 + n2.1, HTree.node n1.2 n2.2) rest.reverse)
        rw [← hl2] at hstep
        refine hstep.trans ?_
        rw [hldecomp]
        simp only [List.flatMap_cons, List.flatMap_append, List.flatMap_nil,
          List.append_nil, treeLeaves]
        exact List.perm_append_comm
      exact hleaves.trans hperm2

theorem flatMap_leaf_map (fre_dic : List (Symbol × Nat)) :
    (fre_dic.map (fun kv => (kv.2, HTree.leaf kv.1))).flatMap (fun p => treeLeaves p.2)
      = fre_dic.map Prod.fst := by
  induction fre_dic with
  | nil => rfl
  | cons kv rest ih => simp [treeLeaves, ih]

/-- For a frequency dict with at least two distinct keys, `Node.build`
returns (a permutation of) the leaf/code pairs of an internal binary
tree. -/
theorem build_spec (fre_dic : List (Symbol × Nat))
    (hnd : (fre_dic.map Prod.fst).Nodup) (h2 : 2 ≤ fre_dic.length) :
    ∃ (a b : HTree), (build fre_dic).Perm (leafCodes (HTree.node a b))
      ∧ (build fre_dic).map Prod.fst = fre_dic.map Prod.fst := by
  have hne : fre_dic ≠ [] := by
    intro hcon
    rw [hcon] at h2
    simp at h2
  have hne1 : ¬ fre_dic.length = 1 := by omega
  set init := sortByWeightDesc (fre_dic.map (fun kv => (kv.2, HTree.leaf kv.1))) with hinit
  have hinitperm : init.Perm (fre_dic.map (fun kv => (kv.2, HTree.leaf kv.1))) := by
    rw [hinit, sortByWeightDesc]
    exact pySort_perm _ _
  have hinitlen : init.length = fre_dic.length := by
    rw [hinitperm.length_eq, List.length_map]
  have hinitne : init ≠ [] := by
    intro hcon
    rw [hcon] at hinitlen
    simp only [List.length_nil] at hinitlen
    omega
  rcases mergeForestGo_spec init.length init (Nat.le_succ _) hinitne with ⟨w, T, hmerge, hleaves⟩
  have hleaves2 : (treeLeaves T).Perm (fre_dic.map Prod.fst) := by
    refine hleaves.trans ?_
    refine (perm_flatMap (fun p : Nat × HTree => treeLeaves p.2) hinitperm).trans ?_
    rw [flatMap_leaf_map]
  obtain ⟨a, b, rfl⟩ : ∃ a b, T = HTree.node a b := by
    match T, hleaves2 with
    | .leaf v, hleaves2 =>
      exfalso
      have := hleaves2.length_eq
      simp only [treeLeaves, List.length_cons, List.length_nil, List.length_map] at this
      omega
    | .node a b, _ => exact ⟨a, b, rfl⟩
  refine ⟨a, b, ?_, ?_⟩
  case intro.intro.intro.intro.intro.refine_2 =>
    rw [build, if_neg hne, if_neg hne1, mergeForest, hmerge]
    rw [List.map_map]
    rfl
  -- unfold build
  have hbuild : build fre_dic = fre_dic.map (fun kv =>
      (kv.1, (((dlr (HTree.node a b) []).reverse.find?
        (fun e => decide (e.1 = kv.1))).map Prod.snd).getD [])) := by
    rw [build, if_neg hne, if_neg hne1, mergeForest, hmerge]
  rw [hbuild]
  -- identify the dlr table with leafCodes
  have hdlr : dlr (HTree.node a b) [] = leafCodes (HTree.node a b) := by
    rw [dlr_eq]
    have hfid : (fun e : Symbol × Code => (e.1, ([] : Code) ++ e.2)) = id := by
      funext e
      simp
    rw [hfid, List.map_id]
  rw [hdlr]
  -- key facts about leafCodes keys
  have hlckeys : ((leafCodes (HTree.node a b)).map Prod.fst).Perm (fre_dic.map Prod.fst) := by
    rw [← treeLeaves_eq]
    exact hleaves2
  have hlcnodup : ((leafCodes (HTree.node a b)).map Prod.fst).Nodup :=
    (hlckeys.nodup_iff).mpr hnd
  have hrevnodup : (((leafCodes (HTree.node a b)).reverse).map Prod.fst).Nodup := by
    rw [List.map_reverse]
    exact List.nodup_reverse.mpr hlcnodup
  -- each key looks up to its unique pair
  have hlookup : ∀ kv ∈ fre_dic, ∃ c,
      ((leafCodes (HTree.node a b)).reverse).find? (fun e => decide (e.1 = kv.1))
        = some (kv.1, c) ∧ (kv.1, c) ∈ leafCodes (HTree.node a b) := by
    intro kv hkv
    have hk : kv.1 ∈ ((leafCodes (HTree.node a b)).reverse).map Prod.fst := by
      rw [List.map_reverse, List.mem_reverse]
      exact hlckeys.symm.subset (List.mem_map_of_mem Prod.fst hkv)
    rcases exists_value_of_mem_keys hk with ⟨c, hc⟩
    refine ⟨c, find?_eq_some_of_mem hrevnodup hc, List.mem_reverse.mp hc⟩
  -- double inclusion between the built table and leafCodes
  have htbl : ∀ x ∈ fre_dic.map (fun kv =>
      (kv.1, ((((leafCodes (HTree.node a b)).reverse).find?
        (fun e => decide (e.1 = kv.1))).map Prod.snd).getD [])),
      x ∈ leafCodes (HTree.node a b) := by
    intro x hx
    rcases List.mem_map.mp hx with ⟨kv, hkv, rfl⟩
    rcases hlookup kv hkv with ⟨c, hfind, hmem⟩
    rw [hfind]
    exact hmem
  have htblkeys : ((fre_dic.map (fun kv =>
      (kv.1, ((((leafCodes (HTree.node a b)).reverse).find?
        (fun e => decide (e.1 = kv.1))).map Prod.snd).getD []))).map Prod.fst)
      = fre_dic.map Prod.fst := by
    rw [List.map_map]
    rfl
  -- convert to a permutation via nodup + double subset
  have htblnodup : (fre_dic.map (fun kv =>
      (kv.1, ((((leafCodes (HTree.node a b)).reverse).find?
        (fun e => decide (e.1 = kv.1))).map Prod.snd).getD []))).Nodup := by
    apply List.Nodup.of_map Prod.fst
    rw [htblkeys]
    exact hnd
  have hlcnodup2 : (leafCodes (HTree.node a b)).Nodup :=
    List.Nodup.of_map Prod.fst hlcnodup
  have hsub2 : ∀ x ∈ leafCodes (HTree.node a b),
      x ∈ fre_dic.map (fun kv =>
        (kv.1, ((((leafCodes (HTree.node a b)).reverse).find?
          (fun e => decide (e.1 = kv.1))).map Prod.snd).getD [])) := by
    intro x hx
    have hk : x.1 ∈ fre_dic.map Prod.fst :=
      hlckeys.subset (List.mem_map_of_mem Prod.fst hx)
    rcases List.mem_map.mp hk with ⟨kv, hkv, hkeq⟩
    rcases hlookup kv hkv with ⟨c, hfind, hmem⟩
    have hxc : x = (kv.1, c) := by
      -- both pairs are in leafCodes with the same key, whose keys are nodup
      have h1 : x ∈ leafCodes (HTree.node a b) := hx
      have hinj := List.inj_on_of_nodup_map hlcnodup
      have := hinj h1 hmem (by rw [hkeq])
      rw [this]
    apply List.mem_map.mpr
    refine ⟨kv, hkv, ?_⟩
    rw [hfind, hxc]
    rfl
  apply List.perm_of_nodup_nodup_toFinset_eq htblnodup hlcnodup2
  apply Finset.ext
  intro x
  simp only [List.mem_toFinset]
  exact ⟨fun h => htbl x h, fun h => hsub2 x h⟩

/-! ### Unfolding `Node.decode` -/

theorem mergeCodesGo_ne_nil : ∀ (fuel : Nat) (l : List (Code × HTree)),
    l ≠ [] → mergeCodesGo fuel l ≠ [] := by
  intro fuel
  induction fuel with
  | zero => intro l hne; exact hne
  | succ fuel ih =>
    intro l hne
    rw [mergeCodesGo]
    by_cases hlen : l.length ≤ 1
    · rw [if_pos hlen]; exact hne
    · rw [if_neg hlen]
      match hr : l.reverse with
      | [] => exact hne
      | [x] => exact hne
      | n2 :: n1 :: rest =>
        apply ih
        intro hcon
        have := congrArg List.length hcon
        rw [sortNodes, length_pySort] at this
        simp at this

/-- The result of `Node.decode` once the rebuilt tree is known. -/
theorem decode_eq_of_merge (str_bytes : List Nat) (huffman_dic : List (Symbol × Code))
    (padding : Nat) (c : Code) (t : HTree) (rest2 : List (Code × HTree))
    (hne : huffman_dic ≠ [])
    (hm : mergeCodes (sortNodes
        (((if huffman_dic.length = 1 then pyDictSet huffman_dic ovo ovo else huffman_dic)).map
          (fun kv => (kv.2, HTree.leaf kv.1)))) = (c, t) :: rest2) :
    decode str_bytes huffman_dic padding =
      if (8 * (str_bytes.length : Int)) - padding ≤ 0 then some []
      else chunkWalk t t []
        (pySliceTo (str_bytes.flatMap byteToBits) (8 * (str_bytes.length : Int) - padding)) := by
  rw [decode, decodeWithTable, if_neg hne]
  dsimp only
  rw [hm]
  dsimp only
  by_cases hc : (8 * (str_bytes.length : Int)) - padding ≤ 0
  · rw [if_pos hc, if_pos hc]
  · rw [if_neg hc, if_neg hc]

/-- The mutated dict state after `Node.decode`. -/
theorem decodeWithTable_table (str_bytes : List Nat) (huffman_dic : List (Symbol × Code))
    (padding : Nat) :
    (decodeWithTable str_bytes huffman_dic padding).2
      = if huffman_dic = [] then huffman_dic
        else if huffman_dic.length = 1 then pyDictSet huffman_dic ovo ovo
        else huffman_dic := by
  rw [decodeWithTable]
  by_cases hne : huffman_dic = []
  · rw [if_pos hne, if_pos hne]
  · rw [if_neg hne, if_neg hne]
    dsimp only
    cases hm : mergeCodes (sortNodes
        (((if huffman_dic.length = 1 then pyDictSet huffman_dic ovo ovo else huffman_dic)).map
          (fun kv => (kv.2, HTree.leaf kv.1)))) with
    | nil => rfl
    | cons rootPair rest2 =>
      dsimp only
      by_cases hc : (8 * (str_bytes.length : Int)) - padding ≤ 0
      · rw [if_pos hc]
      · rw [if_neg hc]

/-- Initial decode-side working pairs represent exactly the table. -/
theorem flatMap_pairLeaves_init (tbl : List (Symbol × Code)) :
    (tbl.map (fun kv => (kv.2, HTree.leaf kv.1))).flatMap pairLeaves = tbl := by
  induction tbl with
  | nil => rfl
  | cons kv rest ih => simp [pairLeaves, leafCodes, ih]

/-! ### The round trip, relative to a correctly rebuilt tree -/

theorem roundtrip_from_tree (huffman_dic : List (Symbol × Code)) (data : List Nat)
    (t : HTree)
    (hfind : ∀ b ∈ data, ∃ c, huffman_dic.find? (fun e => decide (e.1 = [b]))
      = some ([b], c) ∧ ([b], c) ∈ leafCodes t ∧ c ≠ []) :
    ∃ packed padding, encode data huffman_dic = .ok (packed, padding) ∧
      (8 * (packed.length : Int)) - padding = (dataBits huffman_dic data).length ∧
      (data = [] → packed = [] ∧ padding = 0) ∧
      (data ≠ [] → (dataBits huffman_dic data).length ≠ 0 ∧
        chunkWalk t t []
          (pySliceTo (packed.flatMap byteToBits)
            (8 * (packed.length : Int) - padding)) = some data) := by
  have hpres : ∀ b ∈ data, (huffman_dic.find? (fun e => decide (e.1 = [b]))).isSome := by
    intro b hb
    rcases hfind b hb with ⟨c, hc, _⟩
    rw [hc]
    rfl
  have hdataBits_ne : data ≠ [] → (dataBits huffman_dic data).length ≠ 0 := by
    intro hdata
    match data, hfind, hdata with
    | b :: rest, hfind, _ =>
      rcases hfind b (List.mem_cons_self b rest) with ⟨c, hc, _, hcne⟩
      have hc2 : dataBits huffman_dic (b :: rest)
          = c ++ dataBits huffman_dic rest := by
        rw [dataBits, dataBits, List.flatMap_cons, hc]
        rfl
      rw [hc2, List.length_append]
      have hcpos : 0 < c.length := List.length_pos.mpr hcne
      omega
  rcases encode_spec data huffman_dic hpres with ⟨packed, henc, hflat, hlen8, hbytes⟩
  set B := dataBits huffman_dic data with hB
  set pad := (8 - B.length % 8) % 8 with hpad
  refine ⟨packed, pad, henc, ?_, ?_, ?_⟩
  · omega
  · intro hdata
    subst hdata
    have hB0 : B.length = 0 := by
      rw [hB]
      rfl
    constructor
    · have hp0 : packed.length = 0 := by omega
      exact List.length_eq_zero.mp hp0
    · omega
  · intro hdata
    have hBne : B.length ≠ 0 := by
      rw [hB]
      exact hdataBits_ne hdata
    refine ⟨hBne, ?_⟩
    have hslice : pySliceTo (packed.flatMap byteToBits)
        (8 * (packed.length : Int) - pad) = B.map bitOfChar := by
      have hstop : 8 * (packed.length : Int) - pad = B.length := by
        omega
      rw [hstop, pySliceTo, if_neg (by omega)]
      rw [hflat]
      have htoNat : (B.length : Int).toNat = (B.map bitOfChar).length := by simp
      rw [htoNat, List.take_left]
    rw [hslice]
    -- identify the bit stream with the per-entry concatenation
    set entries := data.map (fun b =>
      (([b] : Symbol), (((huffman_dic.find? (fun e => decide (e.1 = [b]))).map
        Prod.snd).getD []))) with hentries
    have hBmap : B.map bitOfChar = entries.flatMap (fun e => e.2.map bitOfChar) := by
      rw [hB, dataBits, hentries, List.flatMap_map, List.map_flatMap]
    have hsyms : entries.flatMap (fun e => e.1) = data := by
      rw [hentries, List.flatMap_map]
      simp
    have hmem : ∀ e ∈ entries, e ∈ leafCodes t ∧ e.2 ≠ [] := by
      intro e he
      rw [hentries] at he
      rcases List.mem_map.mp he with ⟨b, hb, rfl⟩
      rcases hfind b hb with ⟨c, hc, hmem2, hcne⟩
      rw [hc]
      exact ⟨hmem2, hcne⟩
    rw [hBmap, chunkWalk, chunkWalkGo_eq t _ _ _ _ (le_refl _),
      walkSeg_table t entries [] hmem]
    simp [hsyms]

theorem pyDictSet_ne_nil (d : List (Symbol × Code)) (k : Symbol) (v : Code)
    (h : d ≠ []) : pyDictSet d k v ≠ [] := by
  rw [pyDictSet]
  split
  · simpa using h
  · simp

/-- Any padding at least as large as the bit length of the packed input
makes `Node.decode` return empty output (the walk loop runs zero times);
no validation happens. -/
theorem decode_padding_ge_aux (str_bytes : List Nat) (huffman_dic : List (Symbol × Code))
    (padding : Nat) (h : 8 * str_bytes.length ≤ padding) :
    decode str_bytes huffman_dic padding = some [] := by
  rw [decode, decodeWithTable]
  by_cases hne : huffman_dic = []
  · rw [if_pos hne]
  · rw [if_neg hne]
    dsimp only
    have hdicne : (if huffman_dic.length = 1 then pyDictSet huffman_dic ovo ovo
        else huffman_dic) ≠ [] := by
      split
      · exact pyDictSet_ne_nil _ _ _ hne
      · exact hne
    cases hm : mergeCodes (sortNodes
        ((if huffman_dic.length = 1 then pyDictSet huffman_dic ovo ovo
          else huffman_dic).map (fun kv => (kv.2, HTree.leaf kv.1)))) with
    | nil =>
      exfalso
      apply mergeCodesGo_ne_nil _ _ _ hm
      intro hcon
      have hc2 := congrArg List.length hcon
      rw [sortNodes, length_pySort, List.length_map] at hc2
      simp only [List.length_nil] at hc2
      exact hdicne (List.length_eq_zero.mp hc2)
    | cons rootPair rest2 =>
      dsimp only
      rw [if_pos (by omega)]

/-- The degenerate two-leaf tree rebuilt by `Node.decode` from a
single-entry table `{k: '0'}` after the placeholder insertion. -/
theorem merge_degenerate (k : Symbol) :
    mergeCodes (sortNodes
      (([(k, ([48] : Code)), (ovo, ovo)]).map (fun kv => (kv.2, HTree.leaf kv.1))))
      = [([], HTree.node (HTree.leaf k) (HTree.leaf ovo))] := rfl

/-- Round trip through `encode` and `decode`, given the rebuilt tree. -/
theorem roundtrip_full (huffman_dic : List (Symbol × Code)) (data : List Nat)
    (t : HTree) (c : Code) (rest2 : List (Code × HTree))
    (hne : huffman_dic ≠ [])
    (hfind : ∀ b ∈ data, ∃ cc, huffman_dic.find? (fun e => decide (e.1 = [b]))
      = some ([b], cc) ∧ ([b], cc) ∈ leafCodes t ∧ cc ≠ [])
    (hm : mergeCodes (sortNodes
        (((if huffman_dic.length = 1 then pyDictSet huffman_dic ovo ovo else huffman_dic)).map
          (fun kv => (kv.2, HTree.leaf kv.1)))) = (c, t) :: rest2) :
    ∃ packed padding, encode data huffman_dic = .ok (packed, padding) ∧
      decode packed huffman_dic padding = some data := by
  rcases roundtrip_from_tree huffman_dic data t hfind with
    ⟨packed, padding, henc, hint, hemp, hne2⟩
  refine ⟨packed, padding, henc, ?_⟩
  rw [decode_eq_of_merge packed huffman_dic padding c t rest2 hne hm]
  by_cases hdata : data = []
  · subst hdata
    rcases hemp rfl with ⟨hp, hpad⟩
    subst hp
    subst hpad
    rw [if_pos (by simp)]
  · rcases hne2 hdata with ⟨hBne, hwalk⟩
    rw [if_neg (by omega), hwalk]

/-- The degenerate case of the round trip: a freshly built single-entry
table `{k: '0'}`, with every data byte equal to the table's symbol. -/
theorem roundtrip_single (k : Symbol) (data : List Nat)
    (hk : k.length = 1)
    (hdata : ∀ b ∈ data, [b] = k) :
    ∃ packed padding, encode data [(k, [48])] = .ok (packed, padding) ∧
      decode packed [(k, [48])] padding = some data := by
  have hkovo : ¬ k = ovo := by
    intro hcon
    rw [hcon] at hk
    simp [ovo] at hk
  have hm : mergeCodes (sortNodes
      (((if ([(k, ([48] : Code))]).length = 1
          then pyDictSet [(k, [48])] ovo ovo else [(k, [48])])).map
        (fun kv => (kv.2, HTree.leaf kv.1))))
      = ([], HTree.node (HTree.leaf k) (HTree.leaf ovo)) :: [] := by
    rw [if_pos (show ([(k, ([48] : Code))]).length = 1 from rfl)]
    have hset : pyDictSet [(k, ([48] : Code))] ovo ovo = [(k, [48]), (ovo, ovo)] := by
      rw [pyDictSet, if_neg (by simpa using hkovo)]
      rfl
    rw [hset]
    exact merge_degenerate k
  apply roundtrip_full [(k, [48])] data (HTree.node (HTree.leaf k) (HTree.leaf ovo))
    [] [] (by simp) ?_ hm
  intro b hb
  refine ⟨[48], ?_, ?_, by simp⟩
  · rw [List.find?_cons_of_pos _ (by simpa using (hdata b hb).symm)]
    rw [hdata b hb]
  · rw [← hdata b hb]
    simp [leafCodes]

/-- The general case of the round trip: a table built from at least two
distinct symbols, with every data symbol present in the table. -/
theorem roundtrip_general (fre_dic : List (Symbol × Nat)) (data : List Nat)
    (hnd : (fre_dic.map Prod.fst).Nodup) (h2 : 2 ≤ fre_dic.length)
    (hdata : ∀ b ∈ data, [b] ∈ (build fre_dic).map Prod.fst) :
    ∃ packed padding, encode data (build fre_dic) = .ok (packed, padding) ∧
      decode packed (build fre_dic) padding = some data := by
  rcases build_spec fre_dic hnd h2 with ⟨a, b, hperm, hkeys⟩
  set tbl := build fre_dic with htblD
  have htblkeysnd : (tbl.map Prod.fst).Nodup := by
    rw [hkeys]
    exact hnd
  have htbllen : tbl.length = fre_dic.length := by
    have h := congrArg List.length hkeys
    simpa using h
  have htblne : tbl ≠ [] := by
    intro hcon
    rw [hcon] at htbllen
    simp only [List.length_nil] at htbllen
    omega
  have htbl1 : ¬ tbl.length = 1 := by omega
  set init := sortNodes (tbl.map (fun kv => (kv.2, HTree.leaf kv.1))) with hinitD
  have hinitperm : init.Perm (tbl.map (fun kv => (kv.2, HTree.leaf kv.1))) := by
    rw [hinitD, sortNodes]
    exact pySort_perm _ _
  have hinitsort : init.Pairwise (fun x y => codeKeyLe x.1 y.1 = true) := by
    rw [hinitD, sortNodes]
    exact pySort_sorted (fun (x y : Code × HTree) => codeKeyLe x.1 y.1)
      (fun (x y z : Code × HTree) => codeKeyLe_trans x.1 y.1 z.1)
      (fun (x y : Code × HTree) => codeKeyLe_total x.1 y.1) _
  have hinitlen : init.length = tbl.length := by
    rw [hinitperm.length_eq, List.length_map]
  have hinitne : init ≠ [] := by
    intro hcon
    rw [hcon] at hinitlen
    simp only [List.length_nil] at hinitlen
    omega
  have htreelike : ∃ t0 : HTree, (↑(codesOf t0) : Multiset Code) = ↑(init.map Prod.fst) := by
    refine ⟨HTree.node a b, ?_⟩
    apply Multiset.coe_eq_coe.mpr
    have h1 : (init.map Prod.fst).Perm
        ((tbl.map (fun kv => (kv.2, HTree.leaf kv.1))).map Prod.fst) :=
      hinitperm.map Prod.fst
    have h2eq : ((tbl.map (fun kv => (kv.2, HTree.leaf kv.1))).map Prod.fst)
        = tbl.map Prod.snd := by
      rw [List.map_map]
      rfl
    rw [h2eq] at h1
    have h3 : (tbl.map Prod.snd).Perm ((leafCodes (HTree.node a b)).map Prod.snd) :=
      hperm.map Prod.snd
    exact (h3.symm.trans h1.symm)
  rcases mergeCodesGo_spec init.length init (Nat.le_succ _) hinitsort htreelike hinitne
    with ⟨t, hmergeGo, hpairsM⟩
  have hm : mergeCodes (sortNodes
      (((if tbl.length = 1 then pyDictSet tbl ovo ovo else tbl)).map
        (fun kv => (kv.2, HTree.leaf kv.1)))) = ([], t) :: [] := by
    rw [if_neg htbl1, ← hinitD, mergeCodes, hmergeGo]
  have htblperm : tbl.Perm (leafCodes t) := by
    apply Multiset.coe_eq_coe.mp
    rw [← hpairsM]
    apply Multiset.coe_eq_coe.mpr
    have hp : tbl.Perm (init.flatMap pairLeaves) := by
      conv_lhs => rw [← flatMap_pairLeaves_init tbl]
      exact perm_flatMap pairLeaves hinitperm.symm
    exact hp
  obtain ⟨ta, tb, rfl⟩ : ∃ x y, t = HTree.node x y := by
    match t, htblperm with
    | .leaf v, htblperm =>
      exfalso
      have hl := htblperm.length_eq
      simp only [leafCodes, List.length_cons, List.length_nil] at hl
      omega
    | .node x y, _ => exact ⟨x, y, rfl⟩
  apply roundtrip_full tbl data (HTree.node ta tb) [] [] htblne ?_ hm
  intro bb hbb
  have hkey : [bb] ∈ tbl.map Prod.fst := hdata bb hbb
  rcases exists_value_of_mem_keys hkey with ⟨cc, hcc⟩
  have hmem2 : ([bb], cc) ∈ leafCodes (HTree.node ta tb) := htblperm.subset hcc
  exact ⟨cc, find?_eq_some_of_mem htblkeysnd hcc, hmem2,
    leafCodes_code_ne_nil _ hmem2⟩

/-! ### Totality of the decode walk for any table of single-byte symbols -/

theorem mergeCodesGo_internal : ∀ (fuel : Nat) (l : List (Code × HTree)),
    l.length ≤ fuel + 1 → 2 ≤ l.length →
    ∃ c a b, mergeCodesGo fuel l = [(c, HTree.node a b)] := by
  intro fuel
  induction fuel with
  | zero =>
    intro l hlen h2
    omega
  | succ fuel ih =>
    intro l hlen h2
    have hlen1 : ¬ l.length ≤ 1 := by omega
    obtain ⟨n2, n1, rest, hrev⟩ :
        ∃ n2 n1 rest, l.reverse = n2 :: n1 :: rest := by
      match hr : l.reverse with
      | [] =>
        exfalso
        have hlen0 : l.reverse.length = 0 := by rw [hr]; rfl
        rw [List.length_reverse] at hlen0
        omega
      | [x] =>
        exfalso
        have hlen0 : l.reverse.length = 1 := by rw [hr]; rfl
        rw [List.length_reverse] at hlen0
        omega
      | a :: b :: r => exact ⟨a, b, r, rfl⟩
    have hrestlen : l.length = rest.length + 2 := by
      have h := congrArg List.length hrev
      simp only [List.length_reverse, List.length_cons] at h
      omega
    have hgo : mergeCodesGo (fuel + 1) l
        = mergeCodesGo fuel
          (sortNodes (rest.reverse ++ [(n1.1.dropLast, HTree.node n1.2 n2.2)])) := by
      rw [mergeCodesGo, if_neg hlen1, hrev]
    rw [hgo]
    have hl2len : (sortNodes (rest.reverse
        ++ [(n1.1.dropLast, HTree.node n1.2 n2.2)])).length = rest.length + 1 := by
      rw [sortNodes, length_pySort]
      simp
    by_cases hr2 : rest = []
    · subst hr2
      refine ⟨n1.1.dropLast, n1.2, n2.2, ?_⟩
      have hsingle : sortNodes ((([] : List (Code × HTree))).reverse
          ++ [(n1.1.dropLast, HTree.node n1.2 n2.2)])
          = [(n1.1.dropLast, HTree.node n1.2 n2.2)] := rfl
      rw [hsingle]
      cases fuel with
      | zero => rfl
      | succ fuel2 =>
        rw [mergeCodesGo, if_pos]
        exact Nat.le_refl 1
    · have h22 : 2 ≤ (sortNodes (rest.reverse
          ++ [(n1.1.dropLast, HTree.node n1.2 n2.2)])).length := by
        have : 0 < rest.length := List.length_pos.mpr hr2
        omega
      exact ih _ (by omega) h22

theorem walkSeg_total (root : HTree) (x y : HTree) (hroot : root = HTree.node x y) :
    ∀ (bits : List Nat) (cur : HTree) (acc : List Nat),
    (∃ a b, cur = HTree.node a b) →
    ∃ cur2 acc2, walkSeg root cur acc bits = some (cur2, acc2)
      ∧ ∃ a b, cur2 = HTree.node a b := by
  intro bits
  induction bits with
  | nil =>
    intro cur acc hcur
    exact ⟨cur, acc, rfl, hcur⟩
  | cons item rest ih =>
    intro cur acc hcur
    rcases hcur with ⟨a, b, rfl⟩
    simp only [walkSeg]
    cases hnext : (if item ≠ 0 then b else a) with
    | leaf v => exact ih root (acc ++ v) ⟨x, y, hroot⟩
    | node a2 b2 => exact ih (HTree.node a2 b2) acc ⟨a2, b2, rfl⟩

theorem chunkWalk_total (root : HTree) (x y : HTree) (hroot : root = HTree.node x y)
    (bits acc : List Nat) :
    ∃ out, chunkWalk root root acc bits = some out := by
  rw [chunkWalk, chunkWalkGo_eq root _ _ _ _ (le_refl _)]
  rcases walkSeg_total root x y hroot bits root acc ⟨x, y, hroot⟩ with
    ⟨cur2, acc2, heq, _⟩
  rw [heq]
  exact ⟨acc2, rfl⟩

theorem pyDictSet_length_append (d : List (Symbol × Code)) (k : Symbol) (v : Code)
    (h : ∀ e ∈ d, e.1 ≠ k) : pyDictSet d k v = d ++ [(k, v)] := by
  rw [pyDictSet, if_neg]
  simp only [List.any_eq_true, decide_eq_true_eq, not_exists]
  intro e hcon
  exact h e hcon.1 hcon.2

/-! ### The first missing symbol aborts the encode -/

theorem encodeLoop_error (huffman_dic : List (Symbol × Code)) (x : Nat) (suf : List Nat)
    (hx : ∀ e ∈ huffman_dic, e.1 ≠ [x]) :
    ∀ (pre : List Nat) (bin_buffer : Code) (write_buffer : List Nat),
    (∀ b ∈ pre, (huffman_dic.find? (fun e => decide (e.1 = [b]))).isSome) →
    encodeLoop huffman_dic (pre ++ x :: suf) bin_buffer write_buffer = .error [x] := by
  intro pre
  induction pre with
  | nil =>
    intro bin write _
    have hnone : huffman_dic.find? (fun e => decide (e.1 = [x])) = none := by
      rw [List.find?_eq_none]
      intro e he
      simpa using hx e he
    simp only [List.nil_append, encodeLoop, hnone]
    rfl
  | cons b rest ih =>
    intro bin write hp
    have hsome := hp b (List.mem_cons_self b rest)
    rcases Option.isSome_iff_exists.mp hsome with ⟨entry, hentry⟩
    simp only [List.cons_append, encodeLoop, hentry, Option.map_some]
    exact ih _ _ (fun bb hbb => hp bb (List.mem_cons_of_mem b hbb))

/-! ## The claims -/

/-- C1: For every byte sequence `data` whose symbols are all present in a
CodeTable produced by `Node.build` (from a frequency dict with distinct
single-byte keys), decoding the `(packed bytes, padding)` pair returned by
`Node.encode data table` with `Node.decode` over the same table returns
exactly `data` — including the empty sequence and the single-symbol-alphabet
case. -/
theorem C1_encode_decode_roundtrip (fre_dic : List (Symbol × Nat)) (data : List Nat)
    (hnd : (fre_dic.map Prod.fst).Nodup)
    (hkeys1 : ∀ k ∈ fre_dic.map Prod.fst, k.length = 1)
    (hdata : ∀ b ∈ data, [b] ∈ (build fre_dic).map Prod.fst) :
    ∃ packed padding, encode data (build fre_dic) = .ok (packed, padding) ∧
      decode packed (build fre_dic) padding = some data := by
  by_cases hlen0 : fre_dic = []
  · subst hlen0
    have hdata0 : data = [] := by
      match data, hdata with
      | [], _ => rfl
      | b :: rest, hdata =>
        exact absurd (hdata b (List.mem_cons_self b rest)) (by simp [build])
    subst hdata0
    exact ⟨[], 0, rfl, rfl⟩
  · by_cases hlen1 : fre_dic.length = 1
    · match fre_dic, hlen1, hkeys1, hdata with
      | [kv], _, hkeys1, hdata =>
        have hb : build [kv] = [(kv.1, [48])] := rfl
        rw [hb] at hdata ⊢
        apply roundtrip_single kv.1 data (hkeys1 kv.1 (by simp))
        intro b hbmem
        have hm := hdata b hbmem
        simpa using hm
    · have h2 : 2 ≤ fre_dic.length := by
        have hpos : fre_dic.length ≠ 0 := fun h => hlen0 (List.length_eq_zero.mp h)
        omega
      exact roundtrip_general fre_dic data hnd h2 hdata

theorem C1_witness : ∃ packed padding,
    encode [79, 86, 79] (build [([79], 2), ([86], 1)]) = .ok (packed, padding) ∧
    decode packed (build [([79], 2), ([86], 1)]) padding = some [79, 86, 79] :=
  C1_encode_decode_roundtrip [([79], 2), ([86], 1)] [79, 86, 79]
    (by decide) (by decide) (by decide)

/-- C2: For every FrequencyMap with at least two distinct symbols, the
CodeTable returned by `Node.build` is prefix-free — for every pair of
distinct symbols in the table, neither symbol's bit-string is a prefix of
the other's — and every code is non-empty. -/
theorem C2_prefix_free (fre_dic : List (Symbol × Nat))
    (hnd : (fre_dic.map Prod.fst).Nodup) (h2 : 2 ≤ fre_dic.length) :
    (∀ p ∈ build fre_dic, ∀ q ∈ build fre_dic, p.1 ≠ q.1 → ¬ p.2 <+: q.2) ∧
    (∀ p ∈ build fre_dic, p.2 ≠ []) := by
  rcases build_spec fre_dic hnd h2 with ⟨a, b, hperm, _⟩
  constructor
  · intro p hp q hq hne
    have hp2 : p ∈ leafCodes (HTree.node a b) := hperm.subset hp
    have hq2 : q ∈ leafCodes (HTree.node a b) := hperm.subset hq
    have hpc : p.2 ∈ codesOf (HTree.node a b) := mem_codesOf_of_mem hp2
    have hqc : q.2 ∈ codesOf (HTree.node a b) := mem_codesOf_of_mem hq2
    have hcodene : p.2 ≠ q.2 := by
      intro hcon
      have hinj := List.inj_on_of_nodup_map (codesOf_nodup (HTree.node a b))
      exact hne (congrArg Prod.fst (hinj hp2 hq2 hcon))
    exact codesOf_prefix_free _ p.2 hpc q.2 hqc hcodene
  · intro p hp
    exact leafCodes_code_ne_nil p (hperm.subset hp)

theorem C2_witness :
    ((∀ p ∈ build [([79], 2), ([86], 1)], ∀ q ∈ build [([79], 2), ([86], 1)],
      p.1 ≠ q.1 → ¬ p.2 <+: q.2) ∧
    (∀ p ∈ build [([79], 2), ([86], 1)], p.2 ≠ [])) :=
  C2_prefix_free [([79], 2), ([86], 1)] (by decide) (by decide)

theorem dataBits_length (huffman_dic : List (Symbol × Code)) :
    ∀ data : List Nat, (dataBits huffman_dic data).length
      = (data.map (fun b => (((huffman_dic.find? (fun e => decide (e.1 = [b]))).map
          Prod.snd).getD []).length)).sum := by
  intro data
  induction data with
  | nil => rfl
  | cons b rest ih =>
    simp only [dataBits, List.flatMap_cons, List.length_append, List.map_cons,
      List.sum_cons]
    rw [← ih]
    rfl

/-- C3: For every byte sequence `s` whose symbols all appear in the
CodeTable (a table of bit-string codes), `Node.encode` returns
`(packed, padding)` with `8 × length packed − padding` equal to the sum of
the code lengths of the symbols of `s`, `padding ≤ 7`, `padding = 0` when
the total bit length is a multiple of 8 (in particular for empty input,
where `packed` is empty), and all appended filler bits equal to 0 (the bit
expansion of `packed` is the code stream followed by `padding` zero
bits). -/
theorem C3_bit_length_identity (data : List Nat) (huffman_dic : List (Symbol × Code))
    (hcode : ∀ e ∈ huffman_dic, ∀ ch ∈ e.2, ch = 48 ∨ ch = 49)
    (hpres : ∀ b ∈ data, (huffman_dic.find? (fun e => decide (e.1 = [b]))).isSome) :
    ∃ packed padding, encode data huffman_dic = .ok (packed, padding) ∧
      8 * packed.length - padding
        = (data.map (fun b => (((huffman_dic.find? (fun e => decide (e.1 = [b]))).map
            Prod.snd).getD []).length)).sum ∧
      padding ≤ 7 ∧
      ((data.map (fun b => (((huffman_dic.find? (fun e => decide (e.1 = [b]))).map
            Prod.snd).getD []).length)).sum % 8 = 0 → padding = 0) ∧
      (data = [] → packed = [] ∧ padding = 0) ∧
      packed.flatMap byteToBits
        = (dataBits huffman_dic data).map bitOfChar ++ List.replicate padding 0 := by
  rcases encode_spec data huffman_dic hpres with ⟨packed, henc, hflat, hlen8, _⟩
  have hsum := dataBits_length huffman_dic data
  set B := dataBits huffman_dic data with hB
  set pad := (8 - B.length % 8) % 8 with hpad
  refine ⟨packed, pad, henc, ?_, ?_, ?_, ?_, hflat⟩
  · rw [← hsum]
    omega
  · omega
  · rw [← hsum]
    omega
  · intro hdata
    subst hdata
    have hB0 : B.length = 0 := by
      rw [hB]
      rfl
    constructor
    · have hp0 : packed.length = 0 := by omega
      exact List.length_eq_zero.mp hp0
    · omega

theorem C3_witness :
    ((∀ e ∈ ([([79], [48]), ([86], [49])] : List (Symbol × Code)),
        ∀ ch ∈ e.2, ch = 48 ∨ ch = 49) ∧
      (∀ b ∈ [79, 86, 79],
        ((([([79], [48]), ([86], [49])] : List (Symbol × Code)).find?
          (fun e => decide (e.1 = [b]))).isSome)))
    ∧ (∃ packed padding,
        encode [79, 86, 79] ([([79], [48]), ([86], [49])] : List (Symbol × Code))
          = .ok (packed, padding) ∧
        8 * packed.length - padding
          = ([79, 86, 79].map (fun b =>
              (((([([79], [48]), ([86], [49])] : List (Symbol × Code)).find?
                (fun e => decide (e.1 = [b]))).map Prod.snd).getD []).length)).sum ∧
        padding ≤ 7 ∧
        (([79, 86, 79].map (fun b =>
              (((([([79], [48]), ([86], [49])] : List (Symbol × Code)).find?
                (fun e => decide (e.1 = [b]))).map Prod.snd).getD []).length)).sum % 8 = 0
          → padding = 0) ∧
        (([79, 86, 79] : List Nat) = [] → packed = [] ∧ padding = 0) ∧
        packed.flatMap byteToBits
          = (dataBits ([([79], [48]), ([86], [49])] : List (Symbol × Code))
              [79, 86, 79]).map bitOfChar ++ List.replicate padding 0) :=
  ⟨⟨by decide, by decide⟩,
    C3_bit_length_identity [79, 86, 79] ([([79], [48]), ([86], [49])] : List (Symbol × Code))
      (by decide) (by decide)⟩

/-- C4: For every byte sequence containing at least one symbol with no
entry in the CodeTable, `Node.encode` fails at the first violating symbol
with the Python `KeyError` carrying that symbol (the spec's
`UnknownSymbolError`), and produces no output: the result is the error
value, not a partial encoding. -/
theorem C4_unknown_symbol (huffman_dic : List (Symbol × Code)) (pre : List Nat)
    (x : Nat) (suf : List Nat)
    (hpre : ∀ b ∈ pre, (huffman_dic.find? (fun e => decide (e.1 = [b]))).isSome)
    (hx : ∀ e ∈ huffman_dic, e.1 ≠ [x]) :
    encode (pre ++ x :: suf) huffman_dic = .error [x] := by
  rw [encode, encodeLoop_error huffman_dic x suf hx pre [] [] hpre]

theorem C4_witness : encode ([79] ++ 13 :: [86]) [(([79] : Symbol), ([48] : Code)), ([86], [49])]
    = .error [13] :=
  C4_unknown_symbol [(([79] : Symbol), ([48] : Code)), ([86], [49])] [79] 13 [86]
    (by decide) (by decide)

/-- C5 (counterexample): calling `Node.decode` on a single-entry table
mutates the table in place — the placeholder entry `b'OVO' ↦ 'OVO'` is
added — so the table is not identical before and after the call. -/
theorem C5_counterexample :
    (decodeWithTable [] [([65], [48])] 0).2 ≠ [([65], [48])] := by decide

/-- C5 (amended): `Node.decode` never mutates its input CodeTable except in
the single-entry degenerate case; the final state of the dict equals the
input dict unless the dict has exactly one entry, in which case the
placeholder `b'OVO' ↦ 'OVO'` has been assigned into it. -/
theorem C5_mutation_characterised (str_bytes : List Nat)
    (huffman_dic : List (Symbol × Code)) (padding : Nat) :
    (decodeWithTable str_bytes huffman_dic padding).2
      = if huffman_dic.length = 1 then pyDictSet huffman_dic ovo ovo
        else huffman_dic := by
  rw [decodeWithTable_table]
  by_cases h : huffman_dic = []
  · subst h
    rfl
  · rw [if_neg h]

/-- C6 (counterexample): decoding a non-empty packed sequence against an
empty CodeTable does not surface any failure — it returns (empty)
output. -/
theorem C6_counterexample : decode [64] [] 0 = some [] := by decide

/-- C6 (amended): when `Node.decode` is called against an empty CodeTable
it returns empty output unconditionally — also for non-empty packed
input — and never surfaces an error. -/
theorem C6_empty_table_returns_empty (str_bytes : List Nat) (padding : Nat) :
    decode str_bytes [] padding = some [] := rfl

/-- C7 (counterexample): a padding value of 9 — outside [0,7] and at least
the total bit length of the single packed byte — is not rejected:
`Node.decode` returns (empty) output rather than failing. -/
theorem C7_counterexample :
    decode [0] [([65], [48]), ([66], [49])] 9 = some [] := by decide

/-- C7 (amended): `Node.decode` performs no validation of `padding`.  Any
padding at least the total bit length of `packed` merely makes the
truncated bit list slice empty or the walk loop run zero times, so decode
returns empty output without error. -/
theorem C7_padding_not_validated (str_bytes : List Nat)
    (huffman_dic : List (Symbol × Code)) (padding : Nat)
    (h : 8 * str_bytes.length ≤ padding) :
    decode str_bytes huffman_dic padding = some [] :=
  decode_padding_ge_aux str_bytes huffman_dic padding h

theorem C7_witness : decode [0] [([65], [48])] 8 = some [] :=
  C7_padding_not_validated [0] [([65], [48])] 8 (by decide)

/-- C8: `Node.build {}` returns an empty CodeTable without error, and for
every frequency dict with exactly one symbol, `Node.build` returns the
single-entry table mapping that symbol to the one-bit code `'0'`. -/
theorem C8_empty_and_single :
    build [] = [] ∧ ∀ (k : Symbol) (w : Nat), build [(k, w)] = [(k, [48])] :=
  ⟨rfl, fun _ _ => rfl⟩

/-- C9 (counterexample): for the single-entry CodeTable `{0x41: '1'}` —
whose lone 1-bit code the spec's data model allows — encoding the one-byte
sequence `0x41` and decoding the result emits the placeholder bytes
`b'OVO'` instead of the real symbol: the placeholder does appear in
decoded output. -/
theorem C9_counterexample :
    encode [65] [([65], [49])] = .ok ([128], 7) ∧
    decode [128] [([65], [49])] 7 = some [79, 86, 79] := ⟨rfl, by decide⟩

/-- C9 (amended): for every single-entry CodeTable whose code is `'0'` (as
`Node.build` produces in the degenerate case) and every byte sequence
consisting of that symbol, decoding the encode output returns exactly the
input — so the synthesized placeholder leaf is never emitted there — and
the placeholder key `b'OVO'` never equals a real one-byte data symbol.
With the lone code `'1'` instead, the decoder does emit the placeholder. -/
theorem C9_degenerate_placeholder (b : Nat) (n : Nat) :
    (∃ packed padding,
      encode (List.replicate n b) [([b], [48])] = .ok (packed, padding) ∧
      decode packed [([b], [48])] padding = some (List.replicate n b)) ∧
    (∀ m : Nat, ovo ≠ [m]) := by
  constructor
  · apply roundtrip_single [b] (List.replicate n b) rfl
    intro x hx
    rw [List.eq_of_mem_replicate hx]
  · intro m
    simp [ovo]

/-- C10: For every non-empty CodeTable of single-byte symbols and every
packed byte sequence with `padding ≤ 8 × length packed`, the tree rebuilt
by the reconstruction loop of `Node.decode` is a single internal node
(every node of the `HTree` type has zero or exactly two children, so the
tree is full), and the bit-walk is total: stepping never reaches a missing
child and `Node.decode` returns some byte sequence without failing. -/
theorem C10_decode_total (str_bytes : List Nat) (huffman_dic : List (Symbol × Code))
    (padding : Nat) (hne : huffman_dic ≠ [])
    (hkeys : ∀ k ∈ huffman_dic.map Prod.fst, k.length = 1)
    (hpad : padding ≤ 8 * str_bytes.length) :
    ∃ (c : Code) (a b : HTree) (out : List Nat),
      mergeCodes (sortNodes
        (((if huffman_dic.length = 1 then pyDictSet huffman_dic ovo ovo else huffman_dic)).map
          (fun kv => (kv.2, HTree.leaf kv.1)))) = [(c, HTree.node a b)] ∧
      decode str_bytes huffman_dic padding = some out := by
  set dic := if huffman_dic.length = 1 then pyDictSet huffman_dic ovo ovo else huffman_dic
    with hdic
  have hdiclen : 2 ≤ dic.length := by
    rw [hdic]
    by_cases h1 : huffman_dic.length = 1
    · rw [if_pos h1]
      rw [pyDictSet_length_append]
      · simp only [List.length_append, List.length_cons, List.length_nil]
        omega
      · intro e he hcon
        have hk := hkeys e.1 (List.mem_map_of_mem Prod.fst he)
        rw [hcon] at hk
        simp [ovo] at hk
    · rw [if_neg h1]
      have h0 : huffman_dic.length ≠ 0 := by
        intro hcon
        exact hne (List.length_eq_zero.mp hcon)
      omega
  have hinitlen : (sortNodes (dic.map (fun kv => (kv.2, HTree.leaf kv.1)))).length
      = dic.length := by
    rw [sortNodes, length_pySort, List.length_map]
  rcases mergeCodesGo_internal
      (sortNodes (dic.map (fun kv => (kv.2, HTree.leaf kv.1)))).length
      (sortNodes (dic.map (fun kv => (kv.2, HTree.leaf kv.1))))
      (Nat.le_succ _) (by omega) with ⟨c, a, b, hmerge⟩
  have hm : mergeCodes (sortNodes (dic.map (fun kv => (kv.2, HTree.leaf kv.1))))
      = (c, HTree.node a b) :: [] := by
    rw [mergeCodes, hmerge]
  refine ⟨c, a, b, ?_⟩
  rw [decode_eq_of_merge str_bytes huffman_dic padding c (HTree.node a b) []
    hne (by rw [← hdic]; exact hm)]
  by_cases hc : (8 * (str_bytes.length : Int)) - padding ≤ 0
  · refine ⟨[], ?_⟩
    rw [if_pos hc]
    exact ⟨hm, rfl⟩
  · rcases chunkWalk_total (HTree.node a b) a b rfl
        (pySliceTo (str_bytes.flatMap byteToBits) (8 * (str_bytes.length : Int) - padding))
        [] with ⟨out, hout⟩
    refine ⟨out, ?_⟩
    rw [if_neg hc]
    exact ⟨hm, hout⟩

theorem C10_witness :
    (([([65], [48]), ([66], [49])] : List (Symbol × Code)) ≠ [] ∧
      (∀ k ∈ ([([65], [48]), ([66], [49])] : List (Symbol × Code)).map Prod.fst,
        k.length = 1) ∧ 3 ≤ 8 * 1)
    ∧ ∃ (c : Code) (a b : HTree) (out : List Nat),
      mergeCodes (sortNodes
        (((if ([([65], [48]), ([66], [49])] : List (Symbol × Code)).length = 1
            then pyDictSet [([65], [48]), ([66], [49])] ovo ovo
            else [([65], [48]), ([66], [49])])).map
          (fun kv => (kv.2, HTree.leaf kv.1)))) = [(c, HTree.node a b)] ∧
      decode [64] [([65], [48]), ([66], [49])] 3 = some out :=
  ⟨⟨by decide, by decide, by decide⟩,
    C10_decode_total [64] [([65], [48]), ([66], [49])] 3 (by decide) (by decide) (by decide)⟩

end Huffman
